import Mathlib

/-!
Shallow embedding of `src/dom_sink/src/owned_dom.rs` (html5ever's owned DOM
sink) and verification of its specification claims.

Modelling choices:
* A `Handle` in the source is a raw pointer into the `Sink`'s arena
  (`Vec<Box<UnsafeCell<SquishyNode>>>`).  Here a handle is the `Nat` index of
  the node in the arena; the null handle used for absent parents is modelled
  by `Option Nat` in the `parent` field.
* Panics (`assert!`, `panic!`, `.expect`, `Vec` bounds failures) abort the
  process, so every fallible operation returns `Option Sink` with `none` for
  a panic; a run of operations that panics has no resulting state.
* `StrTendril` and `QualName` are modelled as `String` (the claims never
  depend on their internal structure), `Vec` as `List`.
* Field-by-field updates through aliasing `deref_mut()` handles are modelled
  by sequential record updates in source order.
-/

namespace OwnedDomModel

/-- Attribute of an element: `html5ever::tokenizer::Attribute`. -/
structure Attribute where
  name : String
  value : String
deriving DecidableEq

/-- `NodeEnum` from `dom_sink::common`: the node payload variants. -/
inductive NodeEnum where
  | Document : NodeEnum
  | Doctype : String → String → String → NodeEnum
  | Comment : String → NodeEnum
  | Text : String → NodeEnum
  | Element : String → List Attribute → NodeEnum
deriving DecidableEq

/-- QuirksMode from the tree builder interface. -/
inductive QuirksMode where
  | NoQuirks : QuirksMode
  | LimitedQuirks : QuirksMode
  | Quirks : QuirksMode
deriving DecidableEq

/-- `SquishyNode`: payload plus structural fields (parent handle, ordered
children).  `parent = none` models the null handle. -/
structure SquishyNode where
  node : NodeEnum
  parent : Option Nat
  children : List Nat
deriving DecidableEq

/-- `SquishyNode::new`: fresh node with null parent and no children. -/
def SquishyNode.mkNew (ne : NodeEnum) : SquishyNode :=
  { node := ne, parent := none, children := [] }

/-- `NodeOrText<Handle>` from the tree builder interface. -/
inductive NodeOrText where
  | AppendNode : Nat → NodeOrText
  | AppendText : String → NodeOrText
deriving DecidableEq

/-- The `Sink`: arena of nodes, document handle, error log, quirks mode. -/
structure Sink where
  nodes : List SquishyNode
  document : Nat
  errors : List String
  quirksMode : QuirksMode
deriving DecidableEq

/-- Dereference a handle: the node stored at index `i` of the arena. -/
def Sink.getNode (s : Sink) (i : Nat) : Option SquishyNode :=
  s.nodes[i]?

/-- Store `nd` at index `i` of the arena (a write through a handle). -/
def Sink.setNode (s : Sink) (i : Nat) (nd : SquishyNode) : Sink :=
  { s with nodes := s.nodes.set i nd }

/-- `Sink::new_node`: push a fresh node onto the arena, return its handle. -/
def Sink.newNode (s : Sink) (ne : NodeEnum) : Sink × Nat :=
  ({ s with nodes := s.nodes ++ [SquishyNode.mkNew ne] }, s.nodes.length)

/-- `Sink::default()`: empty sink whose document is a fresh `Document` node. -/
def initialSink : Sink :=
  let s0 : Sink := { nodes := [], document := 0, errors := [], quirksMode := .NoQuirks }
  let p := s0.newNode .Document
  { p.1 with document := p.2 }

/-- The free function `append(new_parent, child)`: push `child` onto
`new_parent.children`, then `assert!` that `child.parent` is null (panic
otherwise) and set it to `new_parent`. -/
def appendFn (s : Sink) (newParent child : Nat) : Option Sink :=
  match s.getNode newParent with
  | none => none
  | some pn =>
    let s1 := s.setNode newParent { pn with children := pn.children ++ [child] }
    match s1.getNode child with
    | none => none
    | some cn =>
      match cn.parent with
      | some _ => none
      | none => some (s1.setNode child { cn with parent := some newParent })

/-- `children.iter().enumerate().find(|&(_, n)| *n == to_find)`: index of the
first occurrence of `target`, scanning from accumulator `i`. -/
def findIndexFrom (target : Nat) : List Nat → Nat → Option Nat
  | [], _ => none
  | c :: rest, i => if c = target then some i else findIndexFrom target rest (i + 1)

/-- `get_parent_and_index(child)`:  outer `none` is the
"have parent but couldn't find in parent's children!" panic, inner
`none` is the regular `None` return for a parentless child. -/
def getParentAndIndex (s : Sink) (child : Nat) : Option (Option (Nat × Nat)) :=
  match s.getNode child with
  | none => none
  | some cn =>
    match cn.parent with
    | none => some none
    | some p =>
      match s.getNode p with
      | none => none
      | some pn =>
        match findIndexFrom child pn.children 0 with
        | some i => some (some (p, i))
        | none => none

/-- `Sink::unparent(target)`: remove `target` from its parent's children and
null its parent; no-op when the parent is already null. -/
def Sink.unparent (s : Sink) (target : Nat) : Option Sink :=
  match getParentAndIndex s target with
  | none => none
  | some none => some s
  | some (some (p, i)) =>
    match s.getNode p with
    | none => none
    | some pn =>
      let s1 := s.setNode p { pn with children := pn.children.eraseIdx i }
      match s1.getNode target with
      | none => none
      | some tn => some (s1.setNode target { tn with parent := none })

/-- `append_to_existing_text(prev, text)`: if `prev` is a `Text` node, push
the text onto it in place and report `true`; otherwise report `false`. -/
def appendToExistingText (s : Sink) (prev : Nat) (text : String) : Option (Sink × Bool) :=
  match s.getNode prev with
  | none => none
  | some pv =>
    match pv.node with
    | .Text existing => some (s.setNode prev { pv with node := .Text (existing ++ text) }, true)
    | _ => some (s, false)

/-- `TreeSink::append` for `Sink`: text is merged into an existing trailing
`Text` child if possible, otherwise a new node is allocated (for text) or the
given node reused, and linked via the free `append`. -/
def Sink.append (s : Sink) (parent : Nat) (child : NodeOrText) : Option Sink :=
  match child with
  | .AppendText text =>
    match s.getNode parent with
    | none => none
    | some pn =>
      match pn.children.getLast? with
      | some h =>
        match appendToExistingText s h text with
        | none => none
        | some (s1, true) => some s1
        | some (_, false) =>
          let p := s.newNode (.Text text)
          appendFn p.1 parent p.2
      | none =>
        let p := s.newNode (.Text text)
        appendFn p.1 parent p.2
  | .AppendNode n => appendFn s parent n

/-- `Vec::insert(i, a)`: panics when `i > len`; the caller guards the bound. -/
def insertAt (i : Nat) (a : Nat) (l : List Nat) : List Nat :=
  match i, l with
  | 0, l => a :: l
  | _ + 1, [] => [a]
  | j + 1, x :: xs => x :: insertAt j a xs

/-- `TreeSink::append_before_sibling` for `Sink`.  Finds the sibling's parent
and index (panics when the sibling is parentless); for text at index `> 0`
first tries to merge into the preceding `Text` sibling; otherwise obtains a
child node (fresh for text), detaches it from any current parent, and inserts
it at the sibling's index. -/
def Sink.appendBeforeSibling (s : Sink) (sibling : Nat) (child : NodeOrText) : Option Sink :=
  match getParentAndIndex s sibling with
  | none => none
  | some none => none
  | some (some (p, i)) =>
    let stage : Option (Sink × Option Nat) :=
      match child, i with
      | .AppendText text, 0 =>
        let q := s.newNode (.Text text)
        some (q.1, some q.2)
      | .AppendText text, j + 1 =>
        match s.getNode p with
        | none => none
        | some pn =>
          match pn.children[j]? with
          | none => none
          | some prev =>
            match appendToExistingText s prev text with
            | none => none
            | some (s1, true) => some (s1, none)
            | some (_, false) =>
              let q := s.newNode (.Text text)
              some (q.1, some q.2)
      | .AppendNode n, _ => some (s, some n)
    match stage with
    | none => none
    | some (s1, none) => some s1
    | some (s1, some c) =>
      match s1.getNode c with
      | none => none
      | some cn =>
        let unp : Option Sink := if cn.parent.isSome then s1.unparent c else some s1
        match unp with
        | none => none
        | some s2 =>
          match s2.getNode c with
          | none => none
          | some cn2 =>
            let s3 := s2.setNode c { cn2 with parent := some p }
            match s3.getNode p with
            | none => none
            | some pn2 =>
              if i ≤ pn2.children.length then
                some (s3.setNode p { pn2 with children := insertAt i c pn2.children })
              else none

/-- `TreeSink::append_doctype_to_document`: allocate a fresh `Doctype` node
and `append` it under the document handle. -/
def Sink.appendDoctypeToDocument (s : Sink) (name publicId systemId : String) : Option Sink :=
  let q := s.newNode (.Doctype name publicId systemId)
  appendFn q.1 q.1.document q.2

/-- `TreeSink::add_attrs_if_missing`: on an `Element`, retain exactly the
given attributes whose name does not occur among the existing ones and extend
the existing list with them; early `return` (no-op) otherwise. -/
def Sink.addAttrsIfMissing (s : Sink) (target : Nat) (attrs : List Attribute) : Option Sink :=
  match s.getNode target with
  | none => none
  | some tn =>
    match tn.node with
    | .Element name existing =>
      let kept := attrs.filter (fun attr => ! existing.any (fun e => e.name = attr.name))
      some (s.setNode target { tn with node := .Element name (existing ++ kept) })
    | _ => some s

/-- `TreeSink::remove_from_parent`: delegates to `unparent`. -/
def Sink.removeFromParent (s : Sink) (target : Nat) : Option Sink :=
  s.unparent target

/-- `TreeSink::reparent_children`:
`new_parent.children.append(&mut node.children)` — move the whole child list
of `node` to the end of `new_parent.children`, leaving `node.children` empty.
The parent fields of the moved children are not touched. -/
def Sink.reparentChildren (s : Sink) (node newParent : Nat) : Option Sink :=
  match s.getNode node with
  | none => none
  | some nn =>
    match s.getNode newParent with
    | none => none
    | some npn =>
      let s1 := s.setNode newParent { npn with children := npn.children ++ nn.children }
      match s1.getNode node with
      | none => none
      | some nn1 => some (s1.setNode node { nn1 with children := [] })

/-- `TreeSink::same_home_subtree`: the `Sink` ignores both handles and
returns `true` unconditionally. -/
def Sink.sameHomeSubtree (_s : Sink) (_x _y : Nat) : Bool :=
  true

/-- `TreeSink::set_quirks_mode`. -/
def Sink.setQuirksMode (s : Sink) (m : QuirksMode) : Sink :=
  { s with quirksMode := m }

/-- `TreeSink::parse_error`. -/
def Sink.parseErrorOp (s : Sink) (msg : String) : Sink :=
  { s with errors := s.errors ++ [msg] }

/-- One call of the tree-construction protocol into the `Sink` (the
structural/bookkeeping mutation surface of the `TreeSink` impl). -/
inductive Op where
  | createElement : String → List Attribute → Op
  | createComment : String → Op
  | appendNode : Nat → Nat → Op
  | appendText : Nat → String → Op
  | appendBeforeSiblingNode : Nat → Nat → Op
  | appendBeforeSiblingText : Nat → String → Op
  | appendDoctypeToDocument : String → String → String → Op
  | addAttrsIfMissing : Nat → List Attribute → Op
  | removeFromParent : Nat → Op
  | reparentChildren : Nat → Nat → Op
  | setQuirksMode : QuirksMode → Op
  | parseError : String → Op
deriving DecidableEq

/-- Apply one protocol call to the sink; `none` models a panic. -/
def applyOp (s : Sink) : Op → Option Sink
  | .createElement name attrs => some (s.newNode (.Element name attrs)).1
  | .createComment text => some (s.newNode (.Comment text)).1
  | .appendNode p c => s.append p (.AppendNode c)
  | .appendText p t => s.append p (.AppendText t)
  | .appendBeforeSiblingNode sib c => s.appendBeforeSibling sib (.AppendNode c)
  | .appendBeforeSiblingText sib t => s.appendBeforeSibling sib (.AppendText t)
  | .appendDoctypeToDocument n p q => s.appendDoctypeToDocument n p q
  | .addAttrsIfMissing t attrs => s.addAttrsIfMissing t attrs
  | .removeFromParent t => s.removeFromParent t
  | .reparentChildren n np => s.reparentChildren n np
  | .setQuirksMode m => some (s.setQuirksMode m)
  | .parseError msg => some (s.parseErrorOp msg)

/-- Run a sequence of protocol calls; `none` as soon as one panics. -/
def runOps (s : Sink) : List Op → Option Sink
  | [] => some s
  | op :: ops =>
    match applyOp s op with
    | none => none
    | some s1 => runOps s1 ops

/-- The children of the node a handle points to (empty for a dangling one). -/
def childrenOf (s : Sink) (n : Nat) : List Nat :=
  match s.getNode n with
  | some nd => nd.children
  | none => []

/-- One expansion step of the reachability walk of
`ParseResult::get_result`: keep the frontier and add every child of it. -/
def reachStep (s : Sink) (acc : List Nat) : List Nat :=
  acc ++ acc.flatMap (childrenOf s)

/-- The `live` set of `get_result`: handles reachable from the document by
following `children`, saturated by as many steps as there are nodes.  A node
outside this set is dropped by `get_result` and its payload does not occur in
the finalized `OwnedDom`. -/
def liveSet (s : Sink) : List Nat :=
  (reachStep s)^[s.nodes.length] [s.document]

/-! ### Basic arena lemmas -/

theorem getNode_lt {s : Sink} {k : Nat} {nd : SquishyNode} (h : s.getNode k = some nd) :
    k < s.nodes.length :=
  (List.getElem?_eq_some.mp h).1

theorem getNode_mem {s : Sink} {k : Nat} {nd : SquishyNode} (h : s.getNode k = some nd) :
    nd ∈ s.nodes :=
  List.getElem?_mem h

theorem length_setNode (s : Sink) (k : Nat) (nd' : SquishyNode) :
    (s.setNode k nd').nodes.length = s.nodes.length := by
  simp [Sink.setNode]

theorem getNode_setNode_self {s : Sink} {k : Nat} (nd' : SquishyNode) (h : k < s.nodes.length) :
    (s.setNode k nd').getNode k = some nd' := by
  simp [Sink.setNode, Sink.getNode, List.getElem?_set_self, h]

theorem getNode_setNode_ne (s : Sink) {k j : Nat} (nd' : SquishyNode) (h : j ≠ k) :
    (s.setNode k nd').getNode j = s.getNode j := by
  simp [Sink.setNode, Sink.getNode, List.getElem?_set_ne (Ne.symm h)]

theorem length_newNode (s : Sink) (ne : NodeEnum) :
    (s.newNode ne).1.nodes.length = s.nodes.length + 1 := by
  simp [Sink.newNode]

theorem getNode_newNode_fresh (s : Sink) (ne : NodeEnum) :
    (s.newNode ne).1.getNode s.nodes.length = some (SquishyNode.mkNew ne) := by
  simp [Sink.newNode, Sink.getNode]

theorem getNode_newNode_lt (s : Sink) (ne : NodeEnum) {k : Nat} (h : k < s.nodes.length) :
    (s.newNode ne).1.getNode k = s.getNode k := by
  simp [Sink.newNode, Sink.getNode, List.getElem?_append, h]

/-- Evaluation of `appendFn` once the two handle reads are known. -/
theorem appendFn_eq (s : Sink) (p c : Nat) (pn cn : SquishyNode)
    (hp : s.getNode p = some pn)
    (hc1 : (s.setNode p { pn with children := pn.children ++ [c] }).getNode c = some cn) :
    appendFn s p c =
      match cn.parent with
      | some _ => none
      | none => some ((s.setNode p { pn with children := pn.children ++ [c] }).setNode c
          { cn with parent := some p }) := by
  unfold appendFn
  rw [hp]
  simp only [hc1]

/-- `appendFn` panics when the child's parent is non-null. -/
theorem appendFn_none (s : Sink) (p c : Nat) (pn cn : SquishyNode) (q : Nat)
    (hp : s.getNode p = some pn)
    (hc1 : (s.setNode p { pn with children := pn.children ++ [c] }).getNode c = some cn)
    (hq : cn.parent = some q) :
    appendFn s p c = none := by
  rw [appendFn_eq s p c pn cn hp hc1, hq]

/-- `appendFn` links the child when its parent is null. -/
theorem appendFn_some (s : Sink) (p c : Nat) (pn cn : SquishyNode)
    (hp : s.getNode p = some pn)
    (hc1 : (s.setNode p { pn with children := pn.children ++ [c] }).getNode c = some cn)
    (hq : cn.parent = none) :
    appendFn s p c =
      some ((s.setNode p { pn with children := pn.children ++ [c] }).setNode c
        { cn with parent := some p }) := by
  rw [appendFn_eq s p c pn cn hp hc1, hq]

/-! ### C10 -/

/-- C10: `same_home_subtree(x, y)` returns `true` for every pair of handles,
regardless of where (or whether) they are attached. -/
theorem c10_same_home_subtree_const_true (s : Sink) (x y : Nat) :
    s.sameHomeSubtree x y = true :=
  rfl

/-! ### C1 -/

/-- C1 (code bug): `reparent_children(source, destination)` moves the whole
child list of `source` to the end of `destination` and empties `source`, but
does not update the moved children's parent pointers: after
`reparent_children(1, 0)` the moved node `2` sits in node `0`'s children while
its parent field still says `1`, and a subsequent `remove_from_parent(2)` hits
the "have parent but couldn't find in parent's children!" panic of
`get_parent_and_index`. -/
theorem c1_reparent_children_stale_parent :
    ∃ s : Sink,
      runOps initialSink [.createElement "a" [], .createElement "b" [],
        .appendNode 0 1, .appendNode 1 2, .reparentChildren 1 0] = some s ∧
      (s.getNode 0).map SquishyNode.children = some [1, 2] ∧
      (s.getNode 1).map SquishyNode.children = some [] ∧
      (s.getNode 2).map SquishyNode.parent = some (some 1) ∧
      applyOp s (.removeFromParent 2) = none := by
  exact ⟨⟨[⟨.Document, none, [1, 2]⟩, ⟨.Element "a" [], some 0, []⟩,
    ⟨.Element "b" [], some 1, []⟩], 0, [], .NoQuirks⟩, rfl, rfl, rfl, rfl, rfl⟩

/-! ### C3 -/

/-- C3 (counterexample): appending an existing node that already has parent
`P2 = 1` under the new parent `P1 = 2` does not move it: the `assert!` in
`append` fires and the whole run aborts, so there is no state in which `P1`'s
children contain the child. -/
theorem c3_counterexample :
    runOps initialSink [.createElement "p2" [], .createElement "p1" [],
      .createElement "c" [], .appendNode 1 3, .appendNode 2 3] = none := by
  rfl

/-- `Sink::append` with an already-parented existing node hits the assert. -/
theorem sink_append_node_parented_none (s : Sink) (p c : Nat) (cn : SquishyNode)
    (hc : s.getNode c = some cn) (hpar : cn.parent ≠ none) :
    Sink.append s p (.AppendNode c) = none := by
  show appendFn s p c = none
  obtain ⟨q, hq⟩ : ∃ q, cn.parent = some q := by
    cases hcp2 : cn.parent with
    | none => exact absurd hcp2 hpar
    | some q => exact ⟨q, rfl⟩
  cases hp : s.getNode p with
  | none => unfold appendFn; rw [hp]
  | some pn =>
    by_cases hcp : c = p
    · subst hcp
      have hcn : pn = cn := by rw [hp] at hc; injection hc
      have hq' : pn.parent = some q := by rw [hcn]; exact hq
      exact appendFn_none s c c pn { pn with children := pn.children ++ [c] } q hp
        (getNode_setNode_self _ (getNode_lt hp)) hq'
    · exact appendFn_none s p c pn cn q hp
        (by rw [getNode_setNode_ne _ _ hcp]; exact hc) hq

/-- `Sink::append` with an unparented existing node links it. -/
theorem sink_append_node_unparented (s : Sink) (p c : Nat) (pn cn : SquishyNode)
    (hp : s.getNode p = some pn) (hc : s.getNode c = some cn) (hpar : cn.parent = none) :
    ∃ s1 : Sink, Sink.append s p (.AppendNode c) = some s1 ∧
      (s1.getNode p).map SquishyNode.children = some (pn.children ++ [c]) ∧
      (s1.getNode c).map SquishyNode.parent = some (some p) ∧
      s1.nodes.length = s.nodes.length := by
  have hplt := getNode_lt hp
  have hclt := getNode_lt hc
  by_cases hcp : c = p
  · subst hcp
    have hcn : pn = cn := by rw [hp] at hc; injection hc
    subst hcn
    refine ⟨_, appendFn_some s c c pn { pn with children := pn.children ++ [c] } hp
      (getNode_setNode_self _ hplt) hpar, ?_, ?_, ?_⟩
    · rw [getNode_setNode_self]
      · rfl
      · rw [length_setNode]; exact hplt
    · rw [getNode_setNode_self]
      · rfl
      · rw [length_setNode]; exact hclt
    · rw [length_setNode, length_setNode]
  · refine ⟨_, appendFn_some s p c pn cn hp
      (by rw [getNode_setNode_ne _ _ hcp]; exact hc) hpar, ?_, ?_, ?_⟩
    · rw [getNode_setNode_ne _ _ (Ne.symm hcp), getNode_setNode_self _ hplt]
      rfl
    · rw [getNode_setNode_self]
      · rfl
      · rw [length_setNode]; exact hclt
    · rw [length_setNode, length_setNode]

/-- C3 (amended): `append` with an existing node child whose parent is
non-null aborts (assertion failure) instead of removing the child from its
previous parent; reparent-on-insert exists only in `append_before_sibling`. -/
theorem c3_append_parented_aborts (s : Sink) (p c : Nat) (cn : SquishyNode)
    (hc : s.getNode c = some cn) (hpar : cn.parent ≠ none) :
    Sink.append s p (.AppendNode c) = none :=
  sink_append_node_parented_none s p c cn hc hpar

/-- Witness for C3: a concrete already-parented element child. -/
theorem c3_append_parented_aborts_witness :
    Sink.append ⟨[⟨.Document, none, [1]⟩, ⟨.Element "a" [], some 0, []⟩], 0, [], .NoQuirks⟩
      0 (.AppendNode 1) = none :=
  c3_append_parented_aborts _ 0 1 ⟨.Element "a" [], some 0, []⟩ rfl (by simp)

/-! ### C5 -/

/-- C5: for an existing-node (not text) child, `append` aborts exactly when
the child already has a non-null parent; with a null parent it links the
child — pushes it onto the parent's children and points its parent field at
the parent — without failing and without allocating. -/
theorem c5_append_node_parent_check (s : Sink) (p c : Nat) (pn cn : SquishyNode)
    (hp : s.getNode p = some pn) (hc : s.getNode c = some cn) :
    (cn.parent ≠ none → Sink.append s p (.AppendNode c) = none) ∧
    (cn.parent = none → ∃ s1 : Sink, Sink.append s p (.AppendNode c) = some s1 ∧
      (s1.getNode p).map SquishyNode.children = some (pn.children ++ [c]) ∧
      (s1.getNode c).map SquishyNode.parent = some (some p) ∧
      s1.nodes.length = s.nodes.length) :=
  ⟨fun hpar => sink_append_node_parented_none s p c cn hc hpar,
   fun hpar => sink_append_node_unparented s p c pn cn hp hc hpar⟩

/-- Witness for C5: linking an unparented element under the document. -/
theorem c5_append_node_parent_check_witness :
    ∃ s1 : Sink,
      Sink.append ⟨[⟨.Document, none, []⟩, ⟨.Element "a" [], none, []⟩], 0, [], .NoQuirks⟩
        0 (.AppendNode 1) = some s1 ∧
      (s1.getNode 0).map SquishyNode.children = some ([] ++ [1]) ∧
      (s1.getNode 1).map SquishyNode.parent = some (some 0) ∧
      s1.nodes.length = 2 :=
  (c5_append_node_parent_check
    ⟨[⟨.Document, none, []⟩, ⟨.Element "a" [], none, []⟩], 0, [], .NoQuirks⟩ 0 1
    ⟨.Document, none, []⟩ ⟨.Element "a" [], none, []⟩ rfl rfl).2 rfl

/-! ### C4 -/

/-- C4 (counterexample): a second `append_doctype_to_document` call does not
fail — it appends a second `Doctype` child under the document. -/
theorem c4_counterexample :
    runOps initialSink [.appendDoctypeToDocument "html" "" "",
        .appendDoctypeToDocument "html2" "" ""] =
      some ⟨[⟨.Document, none, [1, 2]⟩, ⟨.Doctype "html" "" "", some 0, []⟩,
        ⟨.Doctype "html2" "" "", some 0, []⟩], 0, [], .NoQuirks⟩ := by
  rfl

/-- C4 (amended): `append_doctype_to_document` always allocates a fresh
`Doctype` node and appends it directly under the document root; it never
checks for an existing doctype and never fails (uniqueness is left to the
caller's protocol). -/
theorem c4_append_doctype_always_appends (s : Sink) (dn : SquishyNode)
    (hd : s.getNode s.document = some dn) (name publicId systemId : String) :
    ∃ s1 : Sink, s.appendDoctypeToDocument name publicId systemId = some s1 ∧
      (s1.getNode s.document).map SquishyNode.children =
        some (dn.children ++ [s.nodes.length]) ∧
      s1.getNode s.nodes.length =
        some ⟨.Doctype name publicId systemId, some s.document, []⟩ ∧
      s1.nodes.length = s.nodes.length + 1 := by
  have hdlt := getNode_lt hd
  have hne : s.nodes.length ≠ s.document := by omega
  have hdoc1 : (s.newNode (.Doctype name publicId systemId)).1.getNode s.document
      = some dn := by
    rw [getNode_newNode_lt s _ hdlt]; exact hd
  have hfresh : (((s.newNode (.Doctype name publicId systemId)).1.setNode s.document
      { dn with children := dn.children ++ [s.nodes.length] }).getNode s.nodes.length)
      = some (SquishyNode.mkNew (.Doctype name publicId systemId)) := by
    rw [getNode_setNode_ne _ _ hne]
    exact getNode_newNode_fresh s _
  refine ⟨_, appendFn_some _ s.document s.nodes.length dn
    (SquishyNode.mkNew (.Doctype name publicId systemId)) hdoc1 hfresh rfl, ?_, ?_, ?_⟩
  · rw [getNode_setNode_ne _ _ (Ne.symm hne), getNode_setNode_self]
    · rfl
    · rw [length_newNode]; omega
  · rw [getNode_setNode_self]
    · rfl
    · rw [length_setNode, length_newNode]; omega
  · rw [length_setNode, length_setNode, length_newNode]

/-- Witness for C4: adding a doctype to the fresh document. -/
theorem c4_append_doctype_always_appends_witness :
    ∃ s1 : Sink, Sink.appendDoctypeToDocument initialSink "html" "pub" "sys" = some s1 ∧
      (s1.getNode initialSink.document).map SquishyNode.children = some ([] ++ [1]) ∧
      s1.getNode 1 = some ⟨.Doctype "html" "pub" "sys", some initialSink.document, []⟩ ∧
      s1.nodes.length = 1 + 1 :=
  c4_append_doctype_always_appends initialSink ⟨.Document, none, []⟩ rfl "html" "pub" "sys"

/-! ### C7 -/

/-- C7: `append` of a text fragment whose parent's last child is already a
`Text` node merges the text into that node in place — the arena gains no new
node and the parent's child list is unchanged; hence appending "ab" then "cd"
to one parent yields a single `Text "abcd"` child (see the witness). -/
theorem c7_append_text_merge (s : Sink) (p h : Nat) (pn hn : SquishyNode) (t0 text : String)
    (hp : s.getNode p = some pn) (hl : pn.children.getLast? = some h)
    (hh : s.getNode h = some hn) (ht : hn.node = .Text t0) :
    Sink.append s p (.AppendText text) =
      some (s.setNode h { hn with node := .Text (t0 ++ text) }) := by
  have hText : appendToExistingText s h text =
      some (s.setNode h { hn with node := .Text (t0 ++ text) }, true) := by
    unfold appendToExistingText
    rw [hh]
    simp only [ht]
  unfold Sink.append
  simp only [hp, hl, hText]

/-- Witness for C7: appending "ab" then "cd" under the document produces the
single text child "abcd". -/
theorem c7_append_text_merge_witness :
    runOps initialSink [.appendText 0 "ab", .appendText 0 "cd"] =
      some ⟨[⟨.Document, none, [1]⟩, ⟨.Text "abcd", some 0, []⟩], 0, [], .NoQuirks⟩ := by
  have h := c7_append_text_merge
    ⟨[⟨.Document, none, [1]⟩, ⟨.Text "ab", some 0, []⟩], 0, [], .NoQuirks⟩ 0 1
    ⟨.Document, none, [1]⟩ ⟨.Text "ab", some 0, []⟩ "ab" "cd" rfl rfl rfl rfl
  show (match Sink.append
      (⟨[⟨.Document, none, [1]⟩, ⟨.Text "ab", some 0, []⟩], 0, [], .NoQuirks⟩ : Sink)
      0 (.AppendText "cd") with
    | none => none
    | some s1 => runOps s1 []) =
    some ⟨[⟨.Document, none, [1]⟩, ⟨.Text "abcd", some 0, []⟩], 0, [], .NoQuirks⟩
  rw [h]
  rfl

/-! ### C8 -/

/-- C8: `add_attrs_if_missing` on an `Element` extends its attribute list, in
the given order, with exactly those attributes whose name does not already
occur among the element's attributes — never overwriting an existing value —
and is a no-op (not an error) on every non-`Element` target. -/
theorem c8_add_attrs_if_missing (s : Sink) (target : Nat) (attrs : List Attribute)
    (tn : SquishyNode) (ht : s.getNode target = some tn) :
    (∀ name existing, tn.node = .Element name existing →
      s.addAttrsIfMissing target attrs =
        some (s.setNode target { tn with node := (.Element name
          (existing ++ attrs.filter
            (fun attr => ! existing.any (fun e => e.name = attr.name)))) })) ∧
    ((∀ name existing, tn.node ≠ .Element name existing) →
      s.addAttrsIfMissing target attrs = some s) := by
  constructor
  · intro name existing hel
    unfold Sink.addAttrsIfMissing
    simp only [ht, hel]
  · intro hne
    unfold Sink.addAttrsIfMissing
    cases htn : tn.node with
    | Element name existing => exact absurd htn (hne name existing)
    | Document => simp only [ht, htn]
    | Doctype a b c => simp only [ht, htn]
    | Comment a => simp only [ht, htn]
    | Text a => simp only [ht, htn]

/-- Witness for C8: `add_attrs_if_missing(element{href="a"}, [href="b",
class="c"])` keeps `href="a"` and adds only `class="c"`. -/
theorem c8_add_attrs_if_missing_witness :
    Sink.addAttrsIfMissing
      ⟨[⟨.Document, none, []⟩, ⟨.Element "e" [⟨"href", "a"⟩], none, []⟩], 0, [], .NoQuirks⟩
      1 [⟨"href", "b"⟩, ⟨"class", "c"⟩] =
    some ⟨[⟨.Document, none, []⟩,
      ⟨.Element "e" [⟨"href", "a"⟩, ⟨"class", "c"⟩], none, []⟩], 0, [], .NoQuirks⟩ := by
  have h := (c8_add_attrs_if_missing
    ⟨[⟨.Document, none, []⟩, ⟨.Element "e" [⟨"href", "a"⟩], none, []⟩], 0, [], .NoQuirks⟩
    1 [⟨"href", "b"⟩, ⟨"class", "c"⟩] ⟨.Element "e" [⟨"href", "a"⟩], none, []⟩ rfl).1
    "e" [⟨"href", "a"⟩] rfl
  exact h.trans (by rfl)

/-! ### C6 -/

/-- `append_before_sibling` with text, preceding sibling a `Text` node:
in-place merge, early return. -/
theorem appendBeforeSibling_text_merge (s : Sink) (sib p j prev : Nat)
    (pn pv : SquishyNode) (t0 text : String)
    (hpi : getParentAndIndex s sib = some (some (p, j + 1)))
    (hp : s.getNode p = some pn) (hprev : pn.children[j]? = some prev)
    (hpv : s.getNode prev = some pv) (ht : pv.node = .Text t0) :
    Sink.appendBeforeSibling s sib (.AppendText text) =
      some (s.setNode prev { pv with node := .Text (t0 ++ text) }) := by
  have hText : appendToExistingText s prev text =
      some (s.setNode prev { pv with node := .Text (t0 ++ text) }, true) := by
    unfold appendToExistingText
    rw [hpv]
    simp only [ht]
  unfold Sink.appendBeforeSibling
  rw [hpi]
  simp only [hp, hprev, hText]

/-- `append_before_sibling` with text at index 0: a fresh `Text` node is
allocated and inserted at the front. -/
theorem appendBeforeSibling_text_at_zero (s : Sink) (sib p : Nat) (pn : SquishyNode)
    (text : String)
    (hpi : getParentAndIndex s sib = some (some (p, 0)))
    (hp : s.getNode p = some pn) :
    Sink.appendBeforeSibling s sib (.AppendText text) =
      some (((s.newNode (.Text text)).1.setNode s.nodes.length
          ⟨.Text text, some p, []⟩).setNode p
          { pn with children := insertAt 0 s.nodes.length pn.children }) := by
  have hplt := getNode_lt hp
  have hne : p ≠ s.nodes.length := by omega
  have hq2 : (s.newNode (.Text text)).2 = s.nodes.length := rfl
  have h1 : (s.newNode (.Text text)).1.getNode s.nodes.length
      = some (SquishyNode.mkNew (.Text text)) := getNode_newNode_fresh s _
  have h2 : ((s.newNode (.Text text)).1.setNode s.nodes.length
      ⟨.Text text, some p, []⟩).getNode p = some pn := by
    rw [getNode_setNode_ne _ _ hne, getNode_newNode_lt s _ hplt]; exact hp
  unfold Sink.appendBeforeSibling
  rw [hpi]
  simp [hq2, h1, h2, SquishyNode.mkNew]

/-- C6: `append_before_sibling` with a text fragment: if the sibling sits at
index `j + 1 > 0` of its parent's children and the preceding sibling (index
`j`) is a `Text` node, the fragment merges into that `Text` node in place and
no new child is inserted; if the sibling is at index 0 a fresh `Text` node is
inserted at the front instead. -/
theorem c6_append_before_sibling_text (s : Sink) (sib p i : Nat) (text : String)
    (hpi : getParentAndIndex s sib = some (some (p, i))) :
    (∀ pn, s.getNode p = some pn → i = 0 →
      ∃ s1 : Sink, Sink.appendBeforeSibling s sib (.AppendText text) = some s1 ∧
        s1.nodes.length = s.nodes.length + 1 ∧
        (s1.getNode p).map SquishyNode.children = some (s.nodes.length :: pn.children) ∧
        s1.getNode s.nodes.length = some ⟨.Text text, some p, []⟩) ∧
    (∀ j pn prev pv t0, i = j + 1 → s.getNode p = some pn → pn.children[j]? = some prev →
      s.getNode prev = some pv → pv.node = .Text t0 →
      Sink.appendBeforeSibling s sib (.AppendText text) =
        some (s.setNode prev { pv with node := .Text (t0 ++ text) })) := by
  constructor
  · intro pn hp hi
    subst hi
    have hplt := getNode_lt hp
    have hne : p ≠ s.nodes.length := by omega
    refine ⟨_, appendBeforeSibling_text_at_zero s sib p pn text hpi hp, ?_, ?_, ?_⟩
    · rw [length_setNode, length_setNode, length_newNode]
    · rw [getNode_setNode_self]
      · rfl
      · rw [length_setNode, length_newNode]; omega
    · rw [getNode_setNode_ne _ _ (Ne.symm hne), getNode_setNode_self]
      rw [length_newNode]; omega
  · intro j pn prev pv t0 hi hp hprev hpv ht
    subst hi
    exact appendBeforeSibling_text_merge s sib p j prev pn pv t0 text hpi hp hprev hpv ht

/-- Witness for C6: parent with children `[Text "foo", <span>]` — inserting
text "bar" before the span merges into the preceding text node giving
`[Text "foobar", <span>]`; and inserting before a sibling at index 0 creates
a fresh text node. -/
theorem c6_append_before_sibling_text_witness :
    Sink.appendBeforeSibling
      ⟨[⟨.Document, none, [2, 1]⟩, ⟨.Element "span" [], some 0, []⟩,
        ⟨.Text "foo", some 0, []⟩], 0, [], .NoQuirks⟩ 1 (.AppendText "bar") =
      some (Sink.setNode
        ⟨[⟨.Document, none, [2, 1]⟩, ⟨.Element "span" [], some 0, []⟩,
          ⟨.Text "foo", some 0, []⟩], 0, [], .NoQuirks⟩ 2
        ⟨.Text ("foo" ++ "bar"), some 0, []⟩) ∧
    (∃ s1 : Sink,
      Sink.appendBeforeSibling
        ⟨[⟨.Document, none, [1]⟩, ⟨.Element "span" [], some 0, []⟩], 0, [], .NoQuirks⟩
        1 (.AppendText "x") = some s1 ∧
      s1.nodes.length = 2 + 1 ∧
      (s1.getNode 0).map SquishyNode.children = some (2 :: [1]) ∧
      s1.getNode 2 = some ⟨.Text "x", some 0, []⟩) :=
  ⟨(c6_append_before_sibling_text
      ⟨[⟨.Document, none, [2, 1]⟩, ⟨.Element "span" [], some 0, []⟩,
        ⟨.Text "foo", some 0, []⟩], 0, [], .NoQuirks⟩ 1 0 1 "bar" rfl).2
      0 ⟨.Document, none, [2, 1]⟩ 2 ⟨.Text "foo", some 0, []⟩ "foo" rfl rfl rfl rfl rfl,
   (c6_append_before_sibling_text
      ⟨[⟨.Document, none, [1]⟩, ⟨.Element "span" [], some 0, []⟩], 0, [], .NoQuirks⟩
      1 0 0 "x" rfl).1 ⟨.Document, none, [1]⟩ rfl rfl⟩

/-! ### C2 counterexample -/

/-- C2 (counterexample): after the concrete run below, the document (node 0)
is reachable from the root and sits in node 1's child sequence, but its
parent field names node 2 (`reparent_children` left it stale); moreover the
reachable nodes 0 and 1 each contain the other in their child sequences — a
cycle.  So the claimed tree-shape invariant fails for arbitrary operation
sequences. -/
theorem c2_counterexample :
    runOps initialSink [.createElement "a" [], .createElement "b" [], .appendNode 0 1,
        .appendNode 1 2, .appendNode 2 0, .reparentChildren 2 1] =
      some ⟨[⟨.Document, some 2, [1]⟩, ⟨.Element "a" [], some 0, [2, 0]⟩,
        ⟨.Element "b" [], some 1, []⟩], 0, [], .NoQuirks⟩ ∧
    (0 : Nat) ∈ liveSet ⟨[⟨.Document, some 2, [1]⟩, ⟨.Element "a" [], some 0, [2, 0]⟩,
        ⟨.Element "b" [], some 1, []⟩], 0, [], .NoQuirks⟩ ∧
    (1 : Nat) ∈ liveSet ⟨[⟨.Document, some 2, [1]⟩, ⟨.Element "a" [], some 0, [2, 0]⟩,
        ⟨.Element "b" [], some 1, []⟩], 0, [], .NoQuirks⟩ ∧
    (0 : Nat) ∈ childrenOf ⟨[⟨.Document, some 2, [1]⟩, ⟨.Element "a" [], some 0, [2, 0]⟩,
        ⟨.Element "b" [], some 1, []⟩], 0, [], .NoQuirks⟩ 1 ∧
    (1 : Nat) ∈ childrenOf ⟨[⟨.Document, some 2, [1]⟩, ⟨.Element "a" [], some 0, [2, 0]⟩,
        ⟨.Element "b" [], some 1, []⟩], 0, [], .NoQuirks⟩ 0 ∧
    (Sink.getNode ⟨[⟨.Document, some 2, [1]⟩, ⟨.Element "a" [], some 0, [2, 0]⟩,
        ⟨.Element "b" [], some 1, []⟩], 0, [], .NoQuirks⟩ 0).map SquishyNode.parent =
      some (some 2) := by
  refine ⟨rfl, ?_, ?_, ?_, ?_, rfl⟩ <;> decide

/-! ### Occurrence counting across child sequences -/

/-- Number of occurrences of handle `i` in a child list. -/
def countIn (i : Nat) : List Nat → Nat
  | [] => 0
  | c :: rest => (if c = i then 1 else 0) + countIn i rest

/-- Total number of occurrences of handle `i` across every node's children. -/
def occCount (s : Sink) (i : Nat) : Nat :=
  (s.nodes.map (fun nd => countIn i nd.children)).sum

theorem countIn_append (i : Nat) (l1 l2 : List Nat) :
    countIn i (l1 ++ l2) = countIn i l1 + countIn i l2 := by
  induction l1 with
  | nil => simp [countIn]
  | cons c rest ih => simp [countIn, ih]; omega

theorem countIn_eq_zero_iff {i : Nat} {l : List Nat} :
    countIn i l = 0 ↔ i ∉ l := by
  induction l with
  | nil => simp [countIn]
  | cons c rest ih =>
    by_cases hc : c = i
    · subst hc; simp [countIn, ih]
    · simp [countIn, hc, ih, Ne.symm hc]

theorem countIn_eraseIdx_le (i k : Nat) (l : List Nat) :
    countIn i (l.eraseIdx k) ≤ countIn i l := by
  induction l generalizing k with
  | nil => simp [List.eraseIdx]
  | cons c rest ih =>
    cases k with
    | zero =>
      simp only [List.eraseIdx, countIn]
      omega
    | succ k => simp only [List.eraseIdx, countIn]; have := ih k; omega

theorem countIn_eraseIdx_getElem {i k : Nat} {l : List Nat} (h : l[k]? = some i) :
    countIn i (l.eraseIdx k) + 1 = countIn i l := by
  induction l generalizing k with
  | nil => simp at h
  | cons c rest ih =>
    cases k with
    | zero =>
      simp only [List.getElem?_cons_zero] at h
      injection h with h
      subst h
      show countIn c rest + 1 = (if c = c then 1 else 0) + countIn c rest
      rw [if_pos rfl]
      omega
    | succ k =>
      simp only [List.getElem?_cons_succ] at h
      simp only [List.eraseIdx, countIn]
      have := ih h
      omega

theorem mem_insertAt {x i a : Nat} {l : List Nat} (h : x ∈ insertAt i a l) :
    x = a ∨ x ∈ l := by
  induction l generalizing i with
  | nil =>
    cases i with
    | zero => simp [insertAt] at h; exact Or.inl h
    | succ j => simp [insertAt] at h; exact Or.inl h
  | cons c rest ih =>
    cases i with
    | zero =>
      rcases List.mem_cons.mp h with h1 | h1
      · exact Or.inl h1
      · exact Or.inr h1
    | succ j =>
      rcases List.mem_cons.mp h with h1 | h1
      · exact Or.inr (List.mem_cons.mpr (Or.inl h1))
      · rcases ih h1 with h2 | h2
        · exact Or.inl h2
        · exact Or.inr (List.mem_cons.mpr (Or.inr h2))

theorem countIn_insertAt (i k a : Nat) (l : List Nat) (h : k ≤ l.length) :
    countIn i (insertAt k a l) = (if a = i then 1 else 0) + countIn i l := by
  induction l generalizing k with
  | nil =>
    cases k with
    | zero => simp [insertAt, countIn]
    | succ j => simp at h
  | cons c rest ih =>
    cases k with
    | zero => simp [insertAt, countIn]
    | succ j =>
      simp only [insertAt, countIn]
      rw [ih j (by simpa using h)]
      omega

theorem mapSum_set (l : List SquishyNode) (k : Nat) (x : SquishyNode)
    (f : SquishyNode → Nat) {nd : SquishyNode} (h : l[k]? = some nd) :
    ((l.set k x).map f).sum + f nd = (l.map f).sum + f x := by
  induction l generalizing k with
  | nil => simp at h
  | cons a rest ih =>
    cases k with
    | zero =>
      simp only [List.getElem?_cons_zero] at h
      injection h with h
      simp [h]
      omega
    | succ k =>
      simp only [List.getElem?_cons_succ] at h
      simp only [List.set, List.map, List.sum_cons]
      have := ih k h
      omega

theorem occCount_setNode {s : Sink} {k : Nat} {nd : SquishyNode} (x : SquishyNode) (i : Nat)
    (h : s.getNode k = some nd) :
    occCount (s.setNode k x) i + countIn i nd.children =
      occCount s i + countIn i x.children :=
  mapSum_set s.nodes k x _ h

theorem occCount_setNode_same_children {s : Sink} {k : Nat} {nd : SquishyNode}
    {x : SquishyNode} (i : Nat) (h : s.getNode k = some nd)
    (hch : x.children = nd.children) :
    occCount (s.setNode k x) i = occCount s i := by
  have := occCount_setNode x i h
  rw [hch] at this
  omega

theorem occCount_newNode (s : Sink) (ne : NodeEnum) (i : Nat) :
    occCount (s.newNode ne).1 i = occCount s i := by
  simp [occCount, Sink.newNode, SquishyNode.mkNew, countIn]

theorem occCount_zero_iff {s : Sink} {i : Nat} :
    occCount s i = 0 ↔ ∀ nd ∈ s.nodes, i ∉ nd.children := by
  constructor
  · intro h nd hmem hc
    have h1 : countIn i nd.children ∈ s.nodes.map (fun nd => countIn i nd.children) :=
      List.mem_map_of_mem _ hmem
    have h2 := List.sum_eq_zero_iff.mp h _ h1
    exact countIn_eq_zero_iff.mp h2 hc
  · intro h
    apply List.sum_eq_zero_iff.mpr
    intro x hx
    obtain ⟨nd, hmem, hx⟩ := List.mem_map.mp hx
    subst hx
    exact countIn_eq_zero_iff.mpr (h nd hmem)

theorem countIn_le_occCount {s : Sink} {k : Nat} {nd : SquishyNode} (i : Nat)
    (h : s.getNode k = some nd) :
    countIn i nd.children ≤ occCount s i :=
  List.single_le_sum (fun x _ => Nat.zero_le x) _
    (List.mem_map_of_mem _ (getNode_mem h))

/-! ### The arena invariant -/

/-- Structural invariant maintained by every `Sink` operation: no handle
occurs more than once across all child sequences, a node whose parent field
is null occurs in no child sequence, and all child entries are valid
handles. -/
structure Inv (s : Sink) : Prop where
  occ_le : ∀ i, occCount s i ≤ 1
  unparented : ∀ i nd, s.getNode i = some nd → nd.parent = none → occCount s i = 0
  child_bound : ∀ nd ∈ s.nodes, ∀ c ∈ nd.children, c < s.nodes.length

theorem inv_initial : Inv initialSink := by
  constructor
  · intro i
    simp [occCount, initialSink, Sink.newNode, SquishyNode.mkNew, countIn]
  · intro i nd hget hpar
    simp [occCount, initialSink, Sink.newNode, SquishyNode.mkNew, countIn]
  · intro nd hmem c hc
    have : nd = SquishyNode.mkNew .Document := by
      simpa [initialSink, Sink.newNode] using hmem
    subst this
    simp [SquishyNode.mkNew] at hc

/-- A write that keeps the children of the stored node preserves occurrence
counts, so if it also keeps the parent field the invariant survives. -/
theorem inv_setNode_payload {s : Sink} {k : Nat} {nd : SquishyNode} (x : SquishyNode)
    (h : Inv s) (hk : s.getNode k = some nd) (hch : x.children = nd.children)
    (hpar : x.parent = nd.parent) : Inv (s.setNode k x) := by
  constructor
  · intro i
    rw [occCount_setNode_same_children i hk hch]
    exact h.occ_le i
  · intro i nd' hget hpar'
    rw [occCount_setNode_same_children i hk hch]
    by_cases hik : i = k
    · subst hik
      rw [getNode_setNode_self _ (getNode_lt hk)] at hget
      injection hget with hget
      subst hget
      exact h.unparented i nd hk (by rw [← hpar]; exact hpar')
    · rw [getNode_setNode_ne _ _ hik] at hget
      exact h.unparented i nd' hget hpar'
  · intro nd' hmem c hc
    rw [length_setNode]
    rcases List.mem_or_eq_of_mem_set hmem with hold | hx
    · exact h.child_bound nd' hold c hc
    · subst hx
      rw [hch] at hc
      exact h.child_bound nd (getNode_mem hk) c hc

/-- Pointing a node's parent field at some handle (children unchanged)
preserves the invariant. -/
theorem inv_setNode_set_parent {s : Sink} {k : Nat} {nd : SquishyNode} (q : Nat)
    (h : Inv s) (hk : s.getNode k = some nd) :
    Inv (s.setNode k { nd with parent := some q }) := by
  constructor
  · intro i
    rw [occCount_setNode_same_children (x := { nd with parent := some q }) i hk rfl]
    exact h.occ_le i
  · intro i nd' hget hpar'
    rw [occCount_setNode_same_children (x := { nd with parent := some q }) i hk rfl]
    by_cases hik : i = k
    · subst hik
      rw [getNode_setNode_self _ (getNode_lt hk)] at hget
      injection hget with hget
      subst hget
      simp at hpar'
    · rw [getNode_setNode_ne _ _ hik] at hget
      exact h.unparented i nd' hget hpar'
  · intro nd' hmem c hc
    rw [length_setNode]
    rcases List.mem_or_eq_of_mem_set hmem with hold | hx
    · exact h.child_bound nd' hold c hc
    · subst hx
      exact h.child_bound nd (getNode_mem hk) c hc

theorem inv_newNode (s : Sink) (ne : NodeEnum) (h : Inv s) : Inv (s.newNode ne).1 := by
  constructor
  · intro i
    rw [occCount_newNode]
    exact h.occ_le i
  · intro i nd hget hpar
    rw [occCount_newNode]
    by_cases hi : i < s.nodes.length
    · rw [getNode_newNode_lt s _ hi] at hget
      exact h.unparented i nd hget hpar
    · apply occCount_zero_iff.mpr
      intro nd' hmem hc
      exact absurd (h.child_bound nd' hmem i hc) (by omega)
  · intro nd hmem c hc
    rw [length_newNode]
    have hmem2 : nd ∈ s.nodes ++ [SquishyNode.mkNew ne] := by
      simpa [Sink.newNode] using hmem
    rcases List.mem_append.mp hmem2 with hold | hnew
    · have := h.child_bound nd hold c hc
      omega
    · rw [List.mem_singleton] at hnew
      subst hnew
      simp [SquishyNode.mkNew] at hc

/-- Full dissection of a successful `appendFn`. -/
theorem appendFn_inversion {s s' : Sink} {p c : Nat} (hs : appendFn s p c = some s') :
    ∃ pn cn, s.getNode p = some pn ∧
      (s.setNode p { pn with children := pn.children ++ [c] }).getNode c = some cn ∧
      cn.parent = none ∧
      s' = (s.setNode p { pn with children := pn.children ++ [c] }).setNode c
        { cn with parent := some p } := by
  unfold appendFn at hs
  cases hp : s.getNode p with
  | none => rw [hp] at hs; simp at hs
  | some pn =>
    rw [hp] at hs
    simp only at hs
    cases hc : (s.setNode p { pn with children := pn.children ++ [c] }).getNode c with
    | none => rw [hc] at hs; simp at hs
    | some cn =>
      rw [hc] at hs
      simp only at hs
      cases hcp : cn.parent with
      | some q => rw [hcp] at hs; simp at hs
      | none =>
        rw [hcp] at hs
        simp only [Option.some_inj] at hs
        exact ⟨pn, cn, rfl, hc, hcp, hs.symm⟩

theorem inv_appendFn {s s' : Sink} {p c : Nat} (h : Inv s)
    (hs : appendFn s p c = some s') : Inv s' := by
  obtain ⟨pn, cn, hp, hc, hcp, rfl⟩ := appendFn_inversion hs
  have hplt := getNode_lt hp
  have hclt : c < s.nodes.length := by
    have := getNode_lt hc
    rwa [length_setNode] at this
  -- the child's parent field was null before the operation, so it occurred
  -- in no child sequence
  have hocc_c : occCount s c = 0 := by
    by_cases hpc : c = p
    · subst hpc
      rw [getNode_setNode_self _ hplt] at hc
      injection hc with hc
      have : pn.parent = none := by rw [← hc] at hcp; exact hcp
      exact h.unparented c pn hp this
    · rw [getNode_setNode_ne _ _ hpc] at hc
      exact h.unparented c cn hc hcp
  -- occurrence counts after the two writes
  have hocc1 : ∀ i, occCount (s.setNode p { pn with children := pn.children ++ [c] }) i =
      occCount s i + (if c = i then 1 else 0) := by
    intro i
    have := occCount_setNode { pn with children := pn.children ++ [c] } i hp
    simp only [countIn_append] at this
    simp only [countIn] at this
    omega
  have hocc2 : ∀ i, occCount ((s.setNode p { pn with children := pn.children ++ [c] }).setNode c
      { cn with parent := some p }) i =
      occCount s i + (if c = i then 1 else 0) := by
    intro i
    rw [occCount_setNode_same_children (x := { cn with parent := some p }) i hc rfl]
    exact hocc1 i
  constructor
  · intro i
    rw [hocc2 i]
    by_cases hci : c = i
    · subst hci
      rw [hocc_c]
      simp
    · rw [if_neg hci]
      have := h.occ_le i
      omega
  · intro i nd hget hpar
    rw [hocc2 i]
    by_cases hic : i = c
    · subst hic
      rw [getNode_setNode_self _ (by rw [length_setNode]; exact hclt)] at hget
      injection hget with hget
      rw [← hget] at hpar
      simp at hpar
    · rw [getNode_setNode_ne _ _ hic] at hget
      rw [if_neg (fun hh => hic hh.symm)]
      by_cases hip : i = p
      · subst hip
        rw [getNode_setNode_self _ hplt] at hget
        injection hget with hget
        have : pn.parent = none := by rw [← hget] at hpar; exact hpar
        rw [h.unparented i pn hp this]
      · rw [getNode_setNode_ne _ _ hip] at hget
        rw [h.unparented i nd hget hpar]
  · intro nd hmem c' hc'
    rw [length_setNode, length_setNode]
    rcases List.mem_or_eq_of_mem_set hmem with hmem1 | hx
    · rcases List.mem_or_eq_of_mem_set hmem1 with hmem0 | hx1
      · exact h.child_bound nd hmem0 c' hc'
      · subst hx1
        simp only at hc'
        rcases List.mem_append.mp hc' with h1 | h1
        · exact h.child_bound pn (getNode_mem hp) c' h1
        · rw [List.mem_singleton] at h1
          omega
    · subst hx
      simp only at hc'
      -- children of the written child node are cn.children
      by_cases hpc : c = p
      · subst hpc
        rw [getNode_setNode_self _ hplt] at hc
        injection hc with hc
        rw [← hc] at hc'
        simp only at hc'
        rcases List.mem_append.mp hc' with h1 | h1
        · exact h.child_bound pn (getNode_mem hp) c' h1
        · rw [List.mem_singleton] at h1
          omega
      · rw [getNode_setNode_ne _ _ hpc] at hc
        exact h.child_bound cn (getNode_mem hc) c' hc'

/-! ### Inversion lemmas for the remaining operations -/

theorem findIndexFrom_spec {target : Nat} {l : List Nat} {acc i : Nat}
    (h : findIndexFrom target l acc = some i) :
    acc ≤ i ∧ l[i - acc]? = some target := by
  induction l generalizing acc with
  | nil => simp [findIndexFrom] at h
  | cons c rest ih =>
    unfold findIndexFrom at h
    by_cases hc : c = target
    · rw [if_pos hc] at h
      injection h with h
      subst h
      exact ⟨le_refl _, by simp [hc]⟩
    · rw [if_neg hc] at h
      obtain ⟨hle, hget⟩ := ih h
      refine ⟨by omega, ?_⟩
      have hi : i - acc = (i - (acc + 1)) + 1 := by omega
      rw [hi]
      simpa using hget

theorem getParentAndIndex_some_inversion {s : Sink} {t p i : Nat}
    (h : getParentAndIndex s t = some (some (p, i))) :
    ∃ tn pn, s.getNode t = some tn ∧ tn.parent = some p ∧ s.getNode p = some pn ∧
      pn.children[i]? = some t := by
  unfold getParentAndIndex at h
  cases ht : s.getNode t with
  | none => rw [ht] at h; simp at h
  | some tn =>
    rw [ht] at h
    simp only at h
    cases htp : tn.parent with
    | none => rw [htp] at h; simp at h
    | some q =>
      rw [htp] at h
      simp only at h
      cases hq : s.getNode q with
      | none => rw [hq] at h; simp at h
      | some pn =>
        rw [hq] at h
        simp only at h
        cases hf : findIndexFrom t pn.children 0 with
        | none => rw [hf] at h; simp at h
        | some k =>
          rw [hf] at h
          simp only [Option.some_inj, Prod.mk.injEq] at h
          obtain ⟨hqp, hki⟩ := h
          subst hqp
          subst hki
          obtain ⟨-, hget⟩ := findIndexFrom_spec hf
          simp only [Nat.sub_zero] at hget
          exact ⟨tn, pn, rfl, htp, hq, hget⟩

theorem getParentAndIndex_none_inversion {s : Sink} {t : Nat}
    (h : getParentAndIndex s t = some none) :
    ∃ tn, s.getNode t = some tn ∧ tn.parent = none := by
  unfold getParentAndIndex at h
  cases ht : s.getNode t with
  | none => rw [ht] at h; simp at h
  | some tn =>
    rw [ht] at h
    simp only at h
    cases htp : tn.parent with
    | none => exact ⟨tn, rfl, htp⟩
    | some q =>
      rw [htp] at h
      simp only at h
      cases hq : s.getNode q with
      | none => rw [hq] at h; simp at h
      | some pn =>
        rw [hq] at h
        simp only at h
        cases hf : findIndexFrom t pn.children 0 with
        | none => rw [hf] at h; simp at h
        | some k => rw [hf] at h; simp at h

theorem unparent_inversion {s s' : Sink} {t : Nat} (hs : s.unparent t = some s') :
    (getParentAndIndex s t = some none ∧ s' = s) ∨
    (∃ p i pn tn, getParentAndIndex s t = some (some (p, i)) ∧
      s.getNode p = some pn ∧
      (s.setNode p { pn with children := pn.children.eraseIdx i }).getNode t = some tn ∧
      s' = (s.setNode p { pn with children := pn.children.eraseIdx i }).setNode t
        { tn with parent := none }) := by
  unfold Sink.unparent at hs
  cases hpi : getParentAndIndex s t with
  | none => rw [hpi] at hs; simp at hs
  | some o =>
    rw [hpi] at hs
    simp only at hs
    cases o with
    | none =>
      simp only [Option.some_inj] at hs
      exact Or.inl ⟨rfl, hs.symm⟩
    | some pi =>
      obtain ⟨p, i⟩ := pi
      simp only at hs
      cases hp : s.getNode p with
      | none => rw [hp] at hs; simp at hs
      | some pn =>
        rw [hp] at hs
        simp only at hs
        cases ht : (s.setNode p { pn with children := pn.children.eraseIdx i }).getNode t with
        | none => rw [ht] at hs; simp at hs
        | some tn =>
          rw [ht] at hs
          simp only [Option.some_inj] at hs
          exact Or.inr ⟨p, i, pn, tn, rfl, hp, ht, hs.symm⟩

theorem appendToExistingText_inversion {s s1 : Sink} {h0 : Nat} {text : String} {b : Bool}
    (hs : appendToExistingText s h0 text = some (s1, b)) :
    ∃ pv, s.getNode h0 = some pv ∧
      ((∃ t0, pv.node = .Text t0 ∧
        s1 = s.setNode h0 { pv with node := .Text (t0 ++ text) }) ∨ s1 = s) := by
  unfold appendToExistingText at hs
  cases hg : s.getNode h0 with
  | none => rw [hg] at hs; simp at hs
  | some pv =>
    rw [hg] at hs
    simp only at hs
    cases hn : pv.node with
    | Text t0 =>
      rw [hn] at hs
      simp only [Prod.mk.injEq, Option.some_inj] at hs
      exact ⟨pv, rfl, Or.inl ⟨t0, hn, hs.1.symm⟩⟩
    | Document =>
      rw [hn] at hs
      simp only [Prod.mk.injEq, Option.some_inj] at hs
      exact ⟨pv, rfl, Or.inr hs.1.symm⟩
    | Doctype a b2 c =>
      rw [hn] at hs
      simp only [Prod.mk.injEq, Option.some_inj] at hs
      exact ⟨pv, rfl, Or.inr hs.1.symm⟩
    | Comment a =>
      rw [hn] at hs
      simp only [Prod.mk.injEq, Option.some_inj] at hs
      exact ⟨pv, rfl, Or.inr hs.1.symm⟩
    | Element a b2 =>
      rw [hn] at hs
      simp only [Prod.mk.injEq, Option.some_inj] at hs
      exact ⟨pv, rfl, Or.inr hs.1.symm⟩

theorem sinkAppendText_inversion {s s' : Sink} {p : Nat} {text : String}
    (hs : Sink.append s p (.AppendText text) = some s') :
    (∃ h0, appendToExistingText s h0 text = some (s', true)) ∨
    appendFn (s.newNode (.Text text)).1 p (s.newNode (.Text text)).2 = some s' := by
  unfold Sink.append at hs
  cases hp : s.getNode p with
  | none => rw [hp] at hs; simp at hs
  | some pn =>
    rw [hp] at hs
    simp only at hs
    cases hl : pn.children.getLast? with
    | none =>
      rw [hl] at hs
      simp only at hs
      exact Or.inr hs
    | some h0 =>
      rw [hl] at hs
      simp only at hs
      cases hA : appendToExistingText s h0 text with
      | none => rw [hA] at hs; simp at hs
      | some pr =>
        rw [hA] at hs
        obtain ⟨s1, b⟩ := pr
        cases b with
        | true =>
          simp only [Option.some_inj] at hs
          subst hs
          exact Or.inl ⟨h0, hA⟩
        | false =>
          simp only at hs
          exact Or.inr hs

theorem addAttrs_inversion {s s' : Sink} {t : Nat} {attrs : List Attribute}
    (hs : s.addAttrsIfMissing t attrs = some s') :
    s' = s ∨ ∃ tn name existing, s.getNode t = some tn ∧ tn.node = .Element name existing ∧
      s' = s.setNode t { tn with node := .Element name (existing ++ attrs.filter
        (fun attr => ! existing.any (fun e => e.name = attr.name))) } := by
  unfold Sink.addAttrsIfMissing at hs
  cases ht : s.getNode t with
  | none => rw [ht] at hs; simp at hs
  | some tn =>
    rw [ht] at hs
    simp only at hs
    cases hn : tn.node with
    | Element name existing =>
      rw [hn] at hs
      simp only [Option.some_inj] at hs
      exact Or.inr ⟨tn, name, existing, rfl, hn, hs.symm⟩
    | Document =>
      rw [hn] at hs
      simp only [Option.some_inj] at hs
      exact Or.inl hs.symm
    | Doctype a b c =>
      rw [hn] at hs
      simp only [Option.some_inj] at hs
      exact Or.inl hs.symm
    | Comment a =>
      rw [hn] at hs
      simp only [Option.some_inj] at hs
      exact Or.inl hs.symm
    | Text a =>
      rw [hn] at hs
      simp only [Option.some_inj] at hs
      exact Or.inl hs.symm

theorem reparentChildren_inversion {s s' : Sink} {n np : Nat}
    (hs : s.reparentChildren n np = some s') :
    ∃ nn npn nn1, s.getNode n = some nn ∧ s.getNode np = some npn ∧
      (s.setNode np { npn with children := npn.children ++ nn.children }).getNode n
        = some nn1 ∧
      s' = (s.setNode np { npn with children := npn.children ++ nn.children }).setNode n
        { nn1 with children := [] } := by
  unfold Sink.reparentChildren at hs
  cases hn : s.getNode n with
  | none => rw [hn] at hs; simp at hs
  | some nn =>
    rw [hn] at hs
    simp only at hs
    cases hnp : s.getNode np with
    | none => rw [hnp] at hs; simp at hs
    | some npn =>
      rw [hnp] at hs
      simp only at hs
      cases hn1 : (s.setNode np { npn with children := npn.children ++ nn.children
          }).getNode n with
      | none => rw [hn1] at hs; simp at hs
      | some nn1 =>
        rw [hn1] at hs
        simp only [Option.some_inj] at hs
        exact ⟨nn, npn, nn1, rfl, rfl, hn1, hs.symm⟩

theorem insertPhase_inversion {s1 s' : Sink} {p i c : Nat}
    (hs : (match s1.getNode c with
      | none => none
      | some cn =>
        match (if cn.parent.isSome then s1.unparent c else some s1 : Option Sink) with
        | none => none
        | some s2 =>
          match s2.getNode c with
          | none => none
          | some cn2 =>
            match (s2.setNode c { cn2 with parent := some p }).getNode p with
            | none => none
            | some pn2 =>
              if i ≤ pn2.children.length then
                some ((s2.setNode c { cn2 with parent := some p }).setNode p
                  { pn2 with children := insertAt i c pn2.children })
              else none) = some s') :
    ∃ cn s2 cn2 pn2,
      s1.getNode c = some cn ∧
      (if cn.parent.isSome then s1.unparent c else some s1) = some s2 ∧
      s2.getNode c = some cn2 ∧
      (s2.setNode c { cn2 with parent := some p }).getNode p = some pn2 ∧
      i ≤ pn2.children.length ∧
      s' = (s2.setNode c { cn2 with parent := some p }).setNode p
        { pn2 with children := insertAt i c pn2.children } := by
  cases hcn : s1.getNode c with
  | none => rw [hcn] at hs; simp at hs
  | some cn =>
    rw [hcn] at hs
    simp only at hs
    cases hup : (if cn.parent.isSome then s1.unparent c else some s1 : Option Sink) with
    | none => rw [hup] at hs; simp at hs
    | some s2 =>
      rw [hup] at hs
      simp only at hs
      cases hc2 : s2.getNode c with
      | none => rw [hc2] at hs; simp at hs
      | some cn2 =>
        rw [hc2] at hs
        simp only at hs
        cases hp2 : (s2.setNode c { cn2 with parent := some p }).getNode p with
        | none => rw [hp2] at hs; simp at hs
        | some pn2 =>
          rw [hp2] at hs
          simp only at hs
          by_cases hle : i ≤ pn2.children.length
          · rw [if_pos hle] at hs
            simp only [Option.some_inj] at hs
            exact ⟨cn, s2, cn2, pn2, rfl, hup, hc2, hp2, hle, hs.symm⟩
          · rw [if_neg hle] at hs
            simp at hs

theorem appendBeforeSibling_inversion {s s' : Sink} {sib : Nat} {child : NodeOrText}
    (hs : Sink.appendBeforeSibling s sib child = some s') :
    ∃ p i, getParentAndIndex s sib = some (some (p, i)) ∧
      ((∃ text j pn prev, child = .AppendText text ∧ i = j + 1 ∧
          s.getNode p = some pn ∧ pn.children[j]? = some prev ∧
          appendToExistingText s prev text = some (s', true)) ∨
       (∃ s1 c cn s2 cn2 pn2,
          ((∃ text, child = .AppendText text ∧ s1 = (s.newNode (.Text text)).1 ∧
              c = s.nodes.length) ∨
            (child = .AppendNode c ∧ s1 = s)) ∧
          s1.getNode c = some cn ∧
          (if cn.parent.isSome then s1.unparent c else some s1) = some s2 ∧
          s2.getNode c = some cn2 ∧
          (s2.setNode c { cn2 with parent := some p }).getNode p = some pn2 ∧
          i ≤ pn2.children.length ∧
          s' = (s2.setNode c { cn2 with parent := some p }).setNode p
            { pn2 with children := insertAt i c pn2.children })) := by
  unfold Sink.appendBeforeSibling at hs
  cases hpi : getParentAndIndex s sib with
  | none => rw [hpi] at hs; simp at hs
  | some o =>
    rw [hpi] at hs
    simp only at hs
    cases o with
    | none => simp at hs
    | some pi =>
      obtain ⟨p, i⟩ := pi
      simp only at hs
      refine ⟨p, i, rfl, ?_⟩
      cases child with
      | AppendNode c =>
        simp only at hs
        obtain ⟨cn, s2, cn2, pn2, f1, f2, f3, f4, f5, f6⟩ := insertPhase_inversion hs
        exact Or.inr ⟨s, c, cn, s2, cn2, pn2, Or.inr ⟨rfl, rfl⟩, f1, f2, f3, f4, f5, f6⟩
      | AppendText text =>
        cases i with
        | zero =>
          simp only at hs
          obtain ⟨cn, s2, cn2, pn2, f1, f2, f3, f4, f5, f6⟩ := insertPhase_inversion hs
          exact Or.inr ⟨(s.newNode (.Text text)).1, (s.newNode (.Text text)).2, cn, s2,
            cn2, pn2, Or.inl ⟨text, rfl, rfl, rfl⟩, f1, f2, f3, f4, f5, f6⟩
        | succ j =>
          simp only at hs
          cases hp2 : s.getNode p with
          | none => rw [hp2] at hs; simp at hs
          | some pn =>
            rw [hp2] at hs
            simp only at hs
            cases hprev : pn.children[j]? with
            | none => rw [hprev] at hs; simp at hs
            | some prev =>
              rw [hprev] at hs
              simp only at hs
              cases hA : appendToExistingText s prev text with
              | none => rw [hA] at hs; simp at hs
              | some pr =>
                rw [hA] at hs
                obtain ⟨sm, b⟩ := pr
                cases b with
                | true =>
                  simp only [Option.some_inj] at hs
                  refine Or.inl ⟨text, j, pn, prev, rfl, rfl, rfl, hprev, ?_⟩
                  rw [← hs]
                  exact hA
                | false =>
                  simp only at hs
                  obtain ⟨cn, s2, cn2, pn2, f1, f2, f3, f4, f5, f6⟩ :=
                    insertPhase_inversion hs
                  exact Or.inr ⟨(s.newNode (.Text text)).1, (s.newNode (.Text text)).2,
                    cn, s2, cn2, pn2, Or.inl ⟨text, rfl, rfl, rfl⟩, f1, f2, f3, f4, f5, f6⟩

/-! ### Invariant preservation for every operation -/

theorem countIn_pos_of_mem {i : Nat} {l : List Nat} (h : i ∈ l) : 1 ≤ countIn i l := by
  rcases Nat.eq_zero_or_pos (countIn i l) with h0 | h0
  · exact absurd (countIn_eq_zero_iff.mp h0) (by simp [h])
  · omega

theorem inv_unparent_strong {s s' : Sink} {t : Nat} (h : Inv s)
    (hs : s.unparent t = some s') :
    Inv s' ∧ occCount s' t = 0 ∧ s'.nodes.length = s.nodes.length ∧
      (∀ j, occCount s' j ≤ occCount s j) ∧ t < s.nodes.length := by
  rcases unparent_inversion hs with ⟨hpi, rfl⟩ | ⟨p, i, pn, tn, hpi, hp, ht, rfl⟩
  · obtain ⟨tn, htn, hpar⟩ := getParentAndIndex_none_inversion hpi
    exact ⟨h, h.unparented t tn htn hpar, rfl, fun j => le_refl _, getNode_lt htn⟩
  · obtain ⟨tn0, pn0, htn0, hpar0, hp0, hchild0⟩ := getParentAndIndex_some_inversion hpi
    have hpn : pn0 = pn := by
      rw [hp] at hp0
      injection hp0 with h2
      exact h2.symm
    subst hpn
    have hplt := getNode_lt hp
    have htlt := getNode_lt htn0
    have hmemt : t ∈ pn0.children := List.getElem?_mem hchild0
    have hcnt : countIn t (pn0.children.eraseIdx i) + 1 = countIn t pn0.children :=
      countIn_eraseIdx_getElem hchild0
    have hocc1 : ∀ j, occCount (s.setNode p { pn0 with children := pn0.children.eraseIdx i }) j
        + countIn j pn0.children = occCount s j + countIn j (pn0.children.eraseIdx i) :=
      fun j => occCount_setNode _ j hp
    have hocc2 : ∀ j, occCount ((s.setNode p { pn0 with children := pn0.children.eraseIdx i
        }).setNode t { tn with parent := none }) j =
        occCount (s.setNode p { pn0 with children := pn0.children.eraseIdx i }) j :=
      fun j => occCount_setNode_same_children (x := { tn with parent := none }) j ht rfl
    have hmono : ∀ j, occCount ((s.setNode p { pn0 with children := pn0.children.eraseIdx i
        }).setNode t { tn with parent := none }) j ≤ occCount s j := by
      intro j
      have h1 := hocc1 j
      have h2 := hocc2 j
      have h3 := countIn_eraseIdx_le j i pn0.children
      omega
    have hocct : occCount ((s.setNode p { pn0 with children := pn0.children.eraseIdx i
        }).setNode t { tn with parent := none }) t = 0 := by
      have h1 := hocc1 t
      have h2 := hocc2 t
      have h3 := countIn_le_occCount t hp
      have h4 := h.occ_le t
      have h5 := countIn_pos_of_mem hmemt
      omega
    have hlen : ((s.setNode p { pn0 with children := pn0.children.eraseIdx i
        }).setNode t { tn with parent := none }).nodes.length = s.nodes.length := by
      rw [length_setNode, length_setNode]
    refine ⟨?_, hocct, hlen, hmono, htlt⟩
    constructor
    · intro j
      have := h.occ_le j
      have := hmono j
      omega
    · intro j nd hget hpar
      by_cases hjt : j = t
      · subst hjt
        exact hocct
      · rw [getNode_setNode_ne _ _ hjt] at hget
        by_cases hjp : j = p
        · subst hjp
          rw [getNode_setNode_self _ hplt] at hget
          injection hget with hget
          have hpp : pn0.parent = none := by rw [← hget] at hpar; exact hpar
          have := h.unparented j pn0 hp hpp
          have := hmono j
          omega
        · rw [getNode_setNode_ne _ _ hjp] at hget
          have := h.unparented j nd hget hpar
          have := hmono j
          omega
    · intro nd hmem c hc
      rw [hlen]
      rcases List.mem_or_eq_of_mem_set hmem with hmem1 | hx
      · rcases List.mem_or_eq_of_mem_set hmem1 with hmem0 | hx1
        · exact h.child_bound nd hmem0 c hc
        · subst hx1
          simp only at hc
          exact h.child_bound pn0 (getNode_mem hp) c
            ((List.eraseIdx_sublist pn0.children i).subset hc)
      · subst hx
        simp only at hc
        by_cases htp : t = p
        · subst htp
          rw [getNode_setNode_self _ hplt] at ht
          injection ht with ht
          rw [← ht] at hc
          simp only at hc
          exact h.child_bound pn0 (getNode_mem hp) c
            ((List.eraseIdx_sublist pn0.children i).subset hc)
        · rw [getNode_setNode_ne _ _ htp] at ht
          exact h.child_bound tn (getNode_mem ht) c hc

theorem inv_appendToExistingText {s s1 : Sink} {h0 : Nat} {text : String} {b : Bool}
    (h : Inv s) (hs : appendToExistingText s h0 text = some (s1, b)) : Inv s1 := by
  obtain ⟨pv, hg, hcase⟩ := appendToExistingText_inversion hs
  rcases hcase with ⟨t0, hn, rfl⟩ | rfl
  · exact inv_setNode_payload _ h hg rfl rfl
  · exact h

theorem inv_sinkAppend {s s' : Sink} {p : Nat} {child : NodeOrText} (h : Inv s)
    (hs : Sink.append s p child = some s') : Inv s' := by
  cases child with
  | AppendNode n => exact inv_appendFn h hs
  | AppendText text =>
    rcases sinkAppendText_inversion hs with ⟨h0, hA⟩ | hF
    · exact inv_appendToExistingText h hA
    · exact inv_appendFn (inv_newNode s _ h) hF

theorem inv_addAttrs {s s' : Sink} {t : Nat} {attrs : List Attribute} (h : Inv s)
    (hs : s.addAttrsIfMissing t attrs = some s') : Inv s' := by
  rcases addAttrs_inversion hs with rfl | ⟨tn, name, existing, ht, hn, rfl⟩
  · exact h
  · exact inv_setNode_payload _ h ht rfl rfl

theorem inv_reparentChildren {s s' : Sink} {n np : Nat} (h : Inv s)
    (hs : s.reparentChildren n np = some s') : Inv s' := by
  obtain ⟨nn, npn, nn1, hn, hnp, hn1, rfl⟩ := reparentChildren_inversion hs
  have hnlt := getNode_lt hn
  have hnplt := getNode_lt hnp
  have hocc1 : ∀ j, occCount (s.setNode np { npn with children := npn.children ++ nn.children
      }) j = occCount s j + countIn j nn.children := by
    intro j
    have h0 := occCount_setNode
      { npn with children := npn.children ++ nn.children } j hnp
    simp only at h0
    rw [countIn_append] at h0
    omega
  have hocc2 : ∀ j, occCount ((s.setNode np { npn with children := npn.children ++ nn.children
      }).setNode n { nn1 with children := [] }) j + countIn j nn1.children =
      occCount (s.setNode np { npn with children := npn.children ++ nn.children }) j := by
    intro j
    have h0 := occCount_setNode { nn1 with children := [] } j hn1
    simp only [countIn] at h0
    omega
  -- identify nn1
  have hnn1 : (n = np ∧ nn1 = { npn with children := npn.children ++ nn.children } ∧ nn = npn)
      ∨ (n ≠ np ∧ nn1 = nn) := by
    by_cases hnnp : n = np
    · subst hnnp
      rw [getNode_setNode_self _ hnplt] at hn1
      injection hn1 with hn1
      have : nn = npn := by rw [hn] at hnp; injection hnp
      exact Or.inl ⟨rfl, hn1.symm, this⟩
    · rw [getNode_setNode_ne _ _ hnnp] at hn1
      rw [hn] at hn1
      injection hn1 with hn1
      exact Or.inr ⟨hnnp, hn1.symm⟩
  have hmono : ∀ j, occCount ((s.setNode np { npn with children := npn.children ++ nn.children
      }).setNode n { nn1 with children := [] }) j ≤ occCount s j := by
    intro j
    have h1 := hocc1 j
    have h2 := hocc2 j
    rcases hnn1 with ⟨heq, hval, hsame⟩ | ⟨hne, hval⟩
    · subst hsame
      subst hval
      simp only at h2 ⊢
      rw [countIn_append] at h2
      omega
    · subst hval
      omega
  constructor
  · intro j
    have := h.occ_le j
    have := hmono j
    omega
  · intro j nd hget hpar
    by_cases hjn : j = n
    · subst hjn
      rw [getNode_setNode_self _ (by rw [length_setNode]; exact hnlt)] at hget
      injection hget with hget
      have hpp : nn1.parent = none := by rw [← hget] at hpar; exact hpar
      have hnnpar : nn.parent = none := by
        rcases hnn1 with ⟨heq, hval, hsame⟩ | ⟨hne, hval⟩
        · rw [hval] at hpp
          simp only at hpp
          rw [hsame]
          exact hpp
        · rw [hval] at hpp
          exact hpp
      have := h.unparented j nn hn hnnpar
      have := hmono j
      omega
    · rw [getNode_setNode_ne _ _ hjn] at hget
      by_cases hjnp : j = np
      · subst hjnp
        rw [getNode_setNode_self _ hnplt] at hget
        injection hget with hget
        have hpp : npn.parent = none := by rw [← hget] at hpar; exact hpar
        have := h.unparented j npn hnp hpp
        have := hmono j
        omega
      · rw [getNode_setNode_ne _ _ hjnp] at hget
        have := h.unparented j nd hget hpar
        have := hmono j
        omega
  · intro nd hmem c hc
    rw [length_setNode, length_setNode]
    rcases List.mem_or_eq_of_mem_set hmem with hmem1 | hx
    · rcases List.mem_or_eq_of_mem_set hmem1 with hmem0 | hx1
      · exact h.child_bound nd hmem0 c hc
      · subst hx1
        simp only at hc
        rcases List.mem_append.mp hc with h1 | h1
        · exact h.child_bound npn (getNode_mem hnp) c h1
        · exact h.child_bound nn (getNode_mem hn) c h1
    · subst hx
      simp only at hc
      exact absurd hc (List.not_mem_nil c)

theorem inv_appendBeforeSibling {s s' : Sink} {sib : Nat} {child : NodeOrText} (h : Inv s)
    (hs : Sink.appendBeforeSibling s sib child = some s') : Inv s' := by
  obtain ⟨p, i, hpi, hcase⟩ := appendBeforeSibling_inversion hs
  rcases hcase with ⟨text, j, pn, prev, hch, hi, hp, hprev, hA⟩ |
    ⟨s1, c, cn, s2, cn2, pn2, horigin, f1, f2, f3, f4, f5, f6⟩
  · exact inv_appendToExistingText h hA
  · subst f6
    have h1 : Inv s1 := by
      rcases horigin with ⟨text, hch, hs1, hc⟩ | ⟨hch, hs1⟩
      · subst hs1; exact inv_newNode s _ h
      · subst hs1; exact h
    have h2 : Inv s2 ∧ occCount s2 c = 0 ∧ s2.nodes.length = s1.nodes.length := by
      by_cases hps : cn.parent.isSome = true
      · rw [if_pos hps] at f2
        obtain ⟨hinv, hocc, hlen, _, _⟩ := inv_unparent_strong h1 f2
        exact ⟨hinv, hocc, hlen⟩
      · rw [if_neg hps] at f2
        injection f2 with f2
        subst f2
        have hparnone : cn.parent = none := by
          cases hcp : cn.parent with
          | none => rfl
          | some q => rw [hcp] at hps; simp at hps
        exact ⟨h1, h1.unparented c cn f1 hparnone, rfl⟩
    obtain ⟨h2i, h2occ, h2len⟩ := h2
    have hclt : c < s2.nodes.length := getNode_lt f3
    have h3 : Inv (s2.setNode c { cn2 with parent := some p }) :=
      inv_setNode_set_parent p h2i f3
    have hocc3 : ∀ jj, occCount (s2.setNode c { cn2 with parent := some p }) jj
        = occCount s2 jj :=
      fun jj => occCount_setNode_same_children (x := { cn2 with parent := some p }) jj f3 rfl
    have hocc4 : ∀ jj, occCount ((s2.setNode c { cn2 with parent := some p }).setNode p
        { pn2 with children := insertAt i c pn2.children }) jj + countIn jj pn2.children
        = occCount (s2.setNode c { cn2 with parent := some p }) jj
          + countIn jj (insertAt i c pn2.children) := by
      intro jj
      have h0 := occCount_setNode
        { pn2 with children := insertAt i c pn2.children } jj f4
      simp only at h0
      omega
    have hins : ∀ jj, countIn jj (insertAt i c pn2.children)
        = (if c = jj then 1 else 0) + countIn jj pn2.children :=
      fun jj => countIn_insertAt jj i c pn2.children f5
    have hocc5 : ∀ jj, occCount ((s2.setNode c { cn2 with parent := some p }).setNode p
        { pn2 with children := insertAt i c pn2.children }) jj
        = occCount s2 jj + (if c = jj then 1 else 0) := by
      intro jj
      have h0 := hocc4 jj
      rw [hins jj, hocc3 jj] at h0
      omega
    constructor
    · intro jj
      rw [hocc5 jj]
      by_cases hcj : c = jj
      · subst hcj
        rw [if_pos rfl, h2occ]
      · rw [if_neg hcj]
        have := h2i.occ_le jj
        omega
    · intro jj nd hget hpar
      rw [hocc5 jj]
      by_cases hjp : jj = p
      · subst hjp
        rw [getNode_setNode_self _ (getNode_lt f4)] at hget
        injection hget with hget
        have hpp : pn2.parent = none := by rw [← hget] at hpar; exact hpar
        by_cases hcp2 : c = jj
        · subst hcp2
          rw [getNode_setNode_self _ hclt] at f4
          injection f4 with f4
          rw [← f4] at hpp
          simp at hpp
        · rw [if_neg hcp2]
          have h0 := h3.unparented jj pn2 f4 hpp
          rw [hocc3 jj] at h0
          omega
      · rw [getNode_setNode_ne _ _ hjp] at hget
        by_cases hjc : jj = c
        · subst hjc
          rw [getNode_setNode_self _ hclt] at hget
          injection hget with hget
          rw [← hget] at hpar
          simp at hpar
        · rw [if_neg (fun hh => hjc hh.symm)]
          have h0 := h3.unparented jj nd hget hpar
          rw [hocc3 jj] at h0
          omega
    · intro nd hmem cc hcc
      rw [length_setNode, length_setNode]
      rcases List.mem_or_eq_of_mem_set hmem with hmem1 | hx
      · rcases List.mem_or_eq_of_mem_set hmem1 with hmem0 | hx1
        · exact h2i.child_bound nd hmem0 cc hcc
        · subst hx1
          simp only at hcc
          exact h2i.child_bound cn2 (getNode_mem f3) cc hcc
      · subst hx
        simp only at hcc
        rcases mem_insertAt hcc with h1' | h1'
        · subst h1'
          exact hclt
        · have hb := h3.child_bound pn2 (getNode_mem f4) cc h1'
          rw [length_setNode] at hb
          exact hb

theorem inv_applyOp {s s' : Sink} {op : Op} (h : Inv s) (hs : applyOp s op = some s') :
    Inv s' := by
  cases op with
  | createElement name attrs =>
    simp only [applyOp, Option.some_inj] at hs
    subst hs
    exact inv_newNode s _ h
  | createComment text =>
    simp only [applyOp, Option.some_inj] at hs
    subst hs
    exact inv_newNode s _ h
  | appendNode p c =>
    simp only [applyOp] at hs
    exact inv_sinkAppend h hs
  | appendText p t =>
    simp only [applyOp] at hs
    exact inv_sinkAppend h hs
  | appendBeforeSiblingNode sib c =>
    simp only [applyOp] at hs
    exact inv_appendBeforeSibling h hs
  | appendBeforeSiblingText sib t =>
    simp only [applyOp] at hs
    exact inv_appendBeforeSibling h hs
  | appendDoctypeToDocument n pb sy =>
    simp only [applyOp, Sink.appendDoctypeToDocument] at hs
    exact inv_appendFn (inv_newNode s _ h) hs
  | addAttrsIfMissing t attrs =>
    simp only [applyOp] at hs
    exact inv_addAttrs h hs
  | removeFromParent t =>
    simp only [applyOp, Sink.removeFromParent] at hs
    exact (inv_unparent_strong h hs).1
  | reparentChildren n np =>
    simp only [applyOp] at hs
    exact inv_reparentChildren h hs
  | setQuirksMode m =>
    simp only [applyOp, Option.some_inj] at hs
    subst hs
    exact ⟨h.occ_le, h.unparented, h.child_bound⟩
  | parseError msg =>
    simp only [applyOp, Option.some_inj] at hs
    subst hs
    exact ⟨h.occ_le, h.unparented, h.child_bound⟩

theorem inv_runOps {ops : List Op} {s0 s : Sink} (h : Inv s0)
    (hs : runOps s0 ops = some s) : Inv s := by
  induction ops generalizing s0 with
  | nil =>
    unfold runOps at hs
    injection hs with hs
    subst hs
    exact h
  | cons op ops ih =>
    unfold runOps at hs
    cases ha : applyOp s0 op with
    | none => rw [ha] at hs; simp at hs
    | some s1 =>
      rw [ha] at hs
      simp only at hs
      exact ih (inv_applyOp h ha) hs

/-! ### C2 (amended) -/

/-- C2 (amended): after any successful sequence of Sink operations starting
from a fresh sink, every node occurs at most once across all nodes' child
sequences (in particular no node is referenced by two parents), and a node
whose parent field is null occurs in no child sequence.  The stronger
original claim — that a reachable node's parent field always names the parent
containing it and that no cycles arise — is false on the code (see the
counterexample theorem): `reparent_children` leaves moved children with stale
parent fields, and `append` accepts the document as a child, closing a
cycle. -/
theorem c2_tree_shape_invariant (ops : List Op) (s : Sink)
    (hs : runOps initialSink ops = some s) :
    (∀ i, occCount s i ≤ 1) ∧
    (∀ i nd, s.getNode i = some nd → nd.parent = none → occCount s i = 0) :=
  have h := inv_runOps inv_initial hs
  ⟨h.occ_le, h.unparented⟩

/-- Witness for C2: the state after creating and appending one element. -/
theorem c2_tree_shape_invariant_witness :
    (∀ i, occCount ⟨[⟨.Document, none, [1]⟩, ⟨.Element "a" [], some 0, []⟩],
        0, [], .NoQuirks⟩ i ≤ 1) ∧
    (∀ i nd, Sink.getNode ⟨[⟨.Document, none, [1]⟩, ⟨.Element "a" [], some 0, []⟩],
        0, [], .NoQuirks⟩ i = some nd → nd.parent = none →
      occCount ⟨[⟨.Document, none, [1]⟩, ⟨.Element "a" [], some 0, []⟩],
        0, [], .NoQuirks⟩ i = 0) :=
  c2_tree_shape_invariant [.createElement "a" [], .appendNode 0 1]
    ⟨[⟨.Document, none, [1]⟩, ⟨.Element "a" [], some 0, []⟩], 0, [], .NoQuirks⟩ rfl

/-! ### Detached nodes stay detached and are dropped by the finalizer -/

/-- `n` is a valid handle that occurs in no node's child sequence. -/
def Detached (s : Sink) (n : Nat) : Prop :=
  n < s.nodes.length ∧ ∀ nd ∈ s.nodes, n ∉ nd.children

theorem detached_setNode {s : Sink} {k : Nat} {x : SquishyNode} {n : Nat}
    (hd : Detached s n) (hx : n ∉ x.children) : Detached (s.setNode k x) n := by
  refine ⟨by rw [length_setNode]; exact hd.1, ?_⟩
  intro nd hmem hc
  rcases List.mem_or_eq_of_mem_set hmem with h1 | h1
  · exact hd.2 nd h1 hc
  · subst h1
    exact hx hc

theorem detached_newNode {s : Sink} (ne : NodeEnum) {n : Nat} (hd : Detached s n) :
    Detached (s.newNode ne).1 n := by
  refine ⟨by rw [length_newNode]; have := hd.1; omega, ?_⟩
  intro nd hmem hc
  have hmem2 : nd ∈ s.nodes ++ [SquishyNode.mkNew ne] := by
    simpa [Sink.newNode] using hmem
  rcases List.mem_append.mp hmem2 with h1 | h1
  · exact hd.2 nd h1 hc
  · rw [List.mem_singleton] at h1
    subst h1
    simp [SquishyNode.mkNew] at hc

theorem detached_appendFn {s s' : Sink} {p c n : Nat} (hd : Detached s n) (hcn : c ≠ n)
    (hs : appendFn s p c = some s') : Detached s' n := by
  obtain ⟨pn, cn, hp, hc, hcp, rfl⟩ := appendFn_inversion hs
  have h1 : Detached (s.setNode p { pn with children := pn.children ++ [c] }) n := by
    apply detached_setNode hd
    simp only []
    intro hmem
    rcases List.mem_append.mp hmem with ha | ha
    · exact hd.2 pn (getNode_mem hp) ha
    · rw [List.mem_singleton] at ha
      exact hcn ha.symm
  apply detached_setNode h1
  intro hc2
  exact h1.2 cn (getNode_mem hc) hc2

theorem detached_unparent {s s' : Sink} {t n : Nat} (hd : Detached s n)
    (hs : s.unparent t = some s') : Detached s' n := by
  rcases unparent_inversion hs with ⟨hpi, rfl⟩ | ⟨p, i, pn, tn, hpi, hp, ht, rfl⟩
  · exact hd
  · have h1 : Detached (s.setNode p { pn with children := pn.children.eraseIdx i }) n := by
      apply detached_setNode hd
      intro hmem
      exact hd.2 pn (getNode_mem hp) ((List.eraseIdx_sublist pn.children i).subset hmem)
    apply detached_setNode h1
    intro hc2
    exact h1.2 tn (getNode_mem ht) hc2

theorem detached_appendToExistingText {s s1 : Sink} {h0 n : Nat} {text : String} {b : Bool}
    (hd : Detached s n) (hs : appendToExistingText s h0 text = some (s1, b)) :
    Detached s1 n := by
  obtain ⟨pv, hg, hcase⟩ := appendToExistingText_inversion hs
  rcases hcase with ⟨t0, hn, rfl⟩ | rfl
  · apply detached_setNode hd
    intro hc
    exact hd.2 pv (getNode_mem hg) hc
  · exact hd

theorem detached_sinkAppend {s s' : Sink} {p n : Nat} {child : NodeOrText}
    (hd : Detached s n) (hchild : ∀ c, child = .AppendNode c → c ≠ n)
    (hs : Sink.append s p child = some s') : Detached s' n := by
  cases child with
  | AppendNode c => exact detached_appendFn hd (hchild c rfl) hs
  | AppendText text =>
    rcases sinkAppendText_inversion hs with ⟨h0, hA⟩ | hF
    · exact detached_appendToExistingText hd hA
    · exact detached_appendFn (detached_newNode _ hd)
        (by have := hd.1; simp only [Sink.newNode]; omega) hF

theorem detached_appendBeforeSibling {s s' : Sink} {sib n : Nat} {child : NodeOrText}
    (hd : Detached s n) (hchild : ∀ c, child = .AppendNode c → c ≠ n)
    (hs : Sink.appendBeforeSibling s sib child = some s') : Detached s' n := by
  obtain ⟨p, i, hpi, hcase⟩ := appendBeforeSibling_inversion hs
  rcases hcase with ⟨text, j, pn, prev, hch, hi, hp, hprev, hA⟩ |
    ⟨s1, c, cn, s2, cn2, pn2, horigin, f1, f2, f3, f4, f5, f6⟩
  · exact detached_appendToExistingText hd hA
  · subst f6
    have hstart : c ≠ n ∧ Detached s1 n := by
      rcases horigin with ⟨text, hch, hs1, hc⟩ | ⟨hch, hs1⟩
      · subst hs1
        subst hc
        exact ⟨by have := hd.1; omega, detached_newNode _ hd⟩
      · subst hs1
        exact ⟨hchild c hch, hd⟩
    obtain ⟨hcn, h1⟩ := hstart
    have h2 : Detached s2 n := by
      by_cases hps : cn.parent.isSome = true
      · rw [if_pos hps] at f2
        exact detached_unparent h1 f2
      · rw [if_neg hps] at f2
        injection f2 with f2
        subst f2
        exact h1
    have h3 : Detached (s2.setNode c { cn2 with parent := some p }) n := by
      apply detached_setNode h2
      intro hc2
      exact h2.2 cn2 (getNode_mem f3) hc2
    apply detached_setNode h3
    intro hc2
    simp only at hc2
    rcases mem_insertAt hc2 with h1' | h1'
    · exact hcn h1'.symm
    · exact h3.2 pn2 (getNode_mem f4) h1'

theorem detached_reparentChildren {s s' : Sink} {m np n : Nat} (hd : Detached s n)
    (hs : s.reparentChildren m np = some s') : Detached s' n := by
  obtain ⟨nn, npn, nn1, hn, hnp, hn1, rfl⟩ := reparentChildren_inversion hs
  have h1 : Detached (s.setNode np { npn with children := npn.children ++ nn.children }) n := by
    apply detached_setNode hd
    intro hmem
    simp only at hmem
    rcases List.mem_append.mp hmem with ha | ha
    · exact hd.2 npn (getNode_mem hnp) ha
    · exact hd.2 nn (getNode_mem hn) ha
  apply detached_setNode h1
  simp

theorem detached_addAttrs {s s' : Sink} {t n : Nat} {attrs : List Attribute}
    (hd : Detached s n) (hs : s.addAttrsIfMissing t attrs = some s') : Detached s' n := by
  rcases addAttrs_inversion hs with rfl | ⟨tn, name, existing, ht, hnode, rfl⟩
  · exact hd
  · apply detached_setNode hd
    intro hc
    exact hd.2 tn (getNode_mem ht) hc

theorem detached_applyOp {s s' : Sink} {op : Op} {n : Nat} (hd : Detached s n)
    (hre1 : ∀ p, op ≠ .appendNode p n) (hre2 : ∀ sib, op ≠ .appendBeforeSiblingNode sib n)
    (hs : applyOp s op = some s') : Detached s' n := by
  cases op with
  | createElement name attrs =>
    simp only [applyOp, Option.some_inj] at hs
    subst hs
    exact detached_newNode _ hd
  | createComment text =>
    simp only [applyOp, Option.some_inj] at hs
    subst hs
    exact detached_newNode _ hd
  | appendNode p c =>
    simp only [applyOp] at hs
    refine detached_sinkAppend hd ?_ hs
    intro c' hc'
    injection hc' with hc'
    intro hcontra
    subst hcontra
    exact hre1 p (by rw [hc'])
  | appendText p t =>
    simp only [applyOp] at hs
    exact detached_sinkAppend hd (fun c hc => by simp at hc) hs
  | appendBeforeSiblingNode sib c =>
    simp only [applyOp] at hs
    refine detached_appendBeforeSibling hd ?_ hs
    intro c' hc'
    injection hc' with hc'
    intro hcontra
    subst hcontra
    exact hre2 sib (by rw [hc'])
  | appendBeforeSiblingText sib t =>
    simp only [applyOp] at hs
    exact detached_appendBeforeSibling hd (fun c hc => by simp at hc) hs
  | appendDoctypeToDocument nm pb sy =>
    simp only [applyOp, Sink.appendDoctypeToDocument] at hs
    exact detached_appendFn (detached_newNode _ hd)
      (by have := hd.1; simp only [Sink.newNode]; omega) hs
  | addAttrsIfMissing t attrs =>
    simp only [applyOp] at hs
    exact detached_addAttrs hd hs
  | removeFromParent t =>
    simp only [applyOp, Sink.removeFromParent] at hs
    exact detached_unparent hd hs
  | reparentChildren m np =>
    simp only [applyOp] at hs
    exact detached_reparentChildren hd hs
  | setQuirksMode m =>
    simp only [applyOp, Option.some_inj] at hs
    subst hs
    exact hd
  | parseError msg =>
    simp only [applyOp, Option.some_inj] at hs
    subst hs
    exact hd

theorem detached_runOps {ops : List Op} {s0 s : Sink} {n : Nat} (hd : Detached s0 n)
    (hre : ∀ op ∈ ops, (∀ p, op ≠ .appendNode p n) ∧
      (∀ sib, op ≠ .appendBeforeSiblingNode sib n))
    (hs : runOps s0 ops = some s) : Detached s n := by
  induction ops generalizing s0 with
  | nil =>
    unfold runOps at hs
    injection hs with hs
    subst hs
    exact hd
  | cons op ops ih =>
    unfold runOps at hs
    cases ha : applyOp s0 op with
    | none => rw [ha] at hs; simp at hs
    | some s1 =>
      rw [ha] at hs
      simp only at hs
      have hop := hre op (List.mem_cons_self op ops)
      exact ih (detached_applyOp hd hop.1 hop.2 ha)
        (fun op' hop' => hre op' (List.mem_cons_of_mem op hop')) hs

/-- A node in no child sequence is reached by the finalizer's walk only if it
is the document root itself. -/
theorem not_mem_liveSet_of_detached {s : Sink} {n : Nat}
    (hfree : ∀ nd ∈ s.nodes, n ∉ nd.children) (hdoc : n ≠ s.document) :
    n ∉ liveSet s := by
  have key : ∀ k, n ∉ (reachStep s)^[k] [s.document] := by
    intro k
    induction k with
    | zero => simp [hdoc]
    | succ k ih =>
      rw [Function.iterate_succ_apply']
      intro hmem
      unfold reachStep at hmem
      rcases List.mem_append.mp hmem with h1 | h2
      · exact ih h1
      · obtain ⟨m, hm, hnm⟩ := List.mem_flatMap.mp h2
        unfold childrenOf at hnm
        cases hg : s.getNode m with
        | none => rw [hg] at hnm; simp at hnm
        | some nd =>
          rw [hg] at hnm
          exact hfree nd (getNode_mem hg) hnm
  exact key s.nodes.length

/-! ### C9 -/

/-- C9: a node handle `n` detached by a successful `remove_from_parent` and
never passed again as the node argument of `append`/`append_before_sibling`
(never reattached) is absent from the `live` set that `get_result` computes
by walking children from the document root — so it is dropped at
finalization and its payload does not occur in the resulting `OwnedDom`.
(The hypothesis `n ≠ s3.document` excludes the document root itself, which
has no parent to be detached from and is always the walk's starting point.) -/
theorem c9_detached_never_reattached_not_live (ops1 ops2 : List Op) (n : Nat)
    (s1 s2 s3 : Sink)
    (h1 : runOps initialSink ops1 = some s1)
    (h2 : applyOp s1 (.removeFromParent n) = some s2)
    (h3 : runOps s2 ops2 = some s3)
    (hre : ∀ op ∈ ops2, (∀ p, op ≠ .appendNode p n) ∧
      (∀ sib, op ≠ .appendBeforeSiblingNode sib n))
    (hdoc : n ≠ s3.document) :
    n ∉ liveSet s3 := by
  have hinv : Inv s1 := inv_runOps inv_initial h1
  have hun : s1.unparent n = some s2 := by
    simpa [applyOp, Sink.removeFromParent] using h2
  have hd2 : Detached s2 n := by
    obtain ⟨_, hocc, hlen, _, hlt⟩ := inv_unparent_strong hinv hun
    exact ⟨by omega, occCount_zero_iff.mp hocc⟩
  have hd3 : Detached s3 n := detached_runOps hd2 hre h3
  exact not_mem_liveSet_of_detached hd3.2 hdoc

/-- Witness for C9: create an element, append it under the document, remove
it again; the finalizer's live set does not contain it. -/
theorem c9_detached_never_reattached_not_live_witness :
    (1 : Nat) ∉ liveSet ⟨[⟨.Document, none, []⟩, ⟨.Element "a" [], none, []⟩],
      0, [], .NoQuirks⟩ :=
  c9_detached_never_reattached_not_live [.createElement "a" [], .appendNode 0 1] [] 1
    ⟨[⟨.Document, none, [1]⟩, ⟨.Element "a" [], some 0, []⟩], 0, [], .NoQuirks⟩
    ⟨[⟨.Document, none, []⟩, ⟨.Element "a" [], none, []⟩], 0, [], .NoQuirks⟩
    ⟨[⟨.Document, none, []⟩, ⟨.Element "a" [], none, []⟩], 0, [], .NoQuirks⟩
    rfl rfl rfl (by simp) (by decide)

end OwnedDomModel
